import Mathlib

/-!
# Trust Bank API: a shallow embedding of `src/server.js`

The server keeps one module-level object `accounts = {}` and answers seven
routes.  Each route handler is embedded as a function from the state before
the request to the state after it and the response.

Modelling decisions, all taken from the source and the language it is written in:

* `accounts` is a plain object, so `accounts[key]` reads an own property or,
  failing that, a property inherited from `Object.prototype`.  The state
  therefore holds the own properties of `accounts` and the `balance`
  properties that the handlers can create on the inherited objects.
* A number is `NaN`, an infinity or a finite value, held as a rational.  Every
  sum, difference and product of finite numbers is rounded to binary64
  (`roundDouble`): the balances under `+=` and `-=`, and the product and the sum
  inside `generateAccountNumber`.  Signed zero is not modelled.
* `Math.random()` is a stream of binary64 values in `[0, 1)` handed to the
  handler; the `do ... while` loop of `generateAccountNumber` runs on a fuel
  that bounds the number of iterations, and `none` means the loop has not
  finished within it.
* The body of a `POST` request is a JSON object, and a field it lacks reads as
  `undefined`.  A request field that is used as a property key
  (`accountNumber`) is given as the key string that the property access
  computes from it; a value for which that computation throws has no such
  string and is not a request of this model.
* A handler that throws is answered by the framework with status 500.  The one
  statement of the handlers that can throw on a JSON value is the template
  literal of `/create`, which converts `name` to a string.
-/

namespace TrustBank

/-! ## Values -/

/-- A JavaScript number: `NaN`, `-Infinity`, a finite value, `Infinity`. -/
inductive JSNum
  | nan
  | ninf
  | fin (q : ℚ)
  | pinf
  deriving DecidableEq

/-- The power `2^k` for an integer `k`. -/
def pow2 (k : ℤ) : ℚ :=
  if 0 ≤ k then ((2 ^ k.toNat : ℕ) : ℚ) else 1 / ((2 ^ (-k).toNat : ℕ) : ℚ)

/-- The number of binary digits of `n`, computed in at most `fuel` halvings. -/
def bitLength : Nat → Nat → Nat
  | 0, _ => 0
  | fuel + 1, n => if n = 0 then 0 else bitLength fuel (n / 2) + 1

/-- The binary exponent of a positive rational `q`: the `e` with `2^e ≤ q < 2^(e+1)`. -/
def binaryExponent (q : ℚ) : ℤ :=
  let k : ℤ := (bitLength q.num.natAbs q.num.natAbs : ℤ) - (bitLength q.den q.den : ℤ)
  if pow2 k ≤ q then k else k - 1

/-- The integer nearest to `m`, the even one of the two when `m` lies halfway. -/
def roundHalfEven (m : ℚ) : ℤ :=
  if m - ⌊m⌋ < 1 / 2 then ⌊m⌋
  else if 1 / 2 < m - ⌊m⌋ then ⌊m⌋ + 1
  else if ⌊m⌋ % 2 = 0 then ⌊m⌋ else ⌊m⌋ + 1

/-- The binary64 value of an exact result: round to nearest, ties to even, on
the grid of 53-bit significands (the subnormal grid below `2^-1022`), and an
infinity from `2^1024` on. -/
def roundDouble (q : ℚ) : JSNum :=
  if q = 0 then .fin 0
  else
    let ulp : ℚ := pow2 (max (binaryExponent |q|) (-1022) - 52)
    let r : ℚ := roundHalfEven (q / ulp) * ulp
    if pow2 1024 ≤ r then .pinf
    else if r ≤ -pow2 1024 then .ninf
    else .fin r

namespace JSNum

/-- The operator `+` on two numbers. -/
def add : JSNum → JSNum → JSNum
  | nan, _ => nan
  | _, nan => nan
  | fin a, fin b => roundDouble (a + b)
  | pinf, ninf => nan
  | ninf, pinf => nan
  | pinf, _ => pinf
  | _, pinf => pinf
  | ninf, _ => ninf
  | _, ninf => ninf

/-- Unary minus. -/
def neg : JSNum → JSNum
  | nan => nan
  | ninf => pinf
  | fin a => fin (-a)
  | pinf => ninf

/-- The operator `-` on two numbers. -/
def sub (a b : JSNum) : JSNum := add a (neg b)

/-- The operator `<` on two numbers; any comparison with `NaN` is false. -/
def lt : JSNum → JSNum → Bool
  | nan, _ => false
  | _, nan => false
  | fin a, fin b => decide (a < b)
  | ninf, ninf => false
  | ninf, _ => true
  | pinf, _ => false
  | fin _, ninf => false
  | fin _, pinf => true

/-- The operator `<=` on two numbers; any comparison with `NaN` is false. -/
def le : JSNum → JSNum → Bool
  | nan, _ => false
  | _, nan => false
  | fin a, fin b => decide (a ≤ b)
  | ninf, _ => true
  | pinf, pinf => true
  | pinf, _ => false
  | fin _, ninf => false
  | fin _, pinf => true

/-- Truthiness of a number: `NaN` and zero are falsy. -/
def truthy : JSNum → Bool
  | nan => false
  | fin q => decide (q ≠ 0)
  | _ => true

end JSNum

/-- A value that a JSON request body can put in a field, or `undefined` for an
absent field.  Arrays and objects are kept apart by a tag only; `unprintable`
is an array or object whose conversion to a string throws, as `{"toString": 1}`. -/
inductive JSVal
  | undefined
  | null
  | bool (b : Bool)
  | num (n : JSNum)
  | str (s : String)
  | object (tag : Nat)
  | unprintable (tag : Nat)
  deriving DecidableEq

/-- Truthiness of a value, as tested by `!name`. -/
def JSVal.truthy : JSVal → Bool
  | .undefined => false
  | .null => false
  | .bool b => b
  | .num n => n.truthy
  | .str s => decide (s ≠ "")
  | .object _ => true
  | .unprintable _ => true

/-- Whether a template literal can convert the value to a string without throwing. -/
def JSVal.printable : JSVal → Bool
  | .unprintable _ => false
  | _ => true

/-! ## The store -/

/-- The object literal `{ accountNumber, name, balance }` built by `/create`. -/
structure Account where
  accountNumber : String
  name : JSVal
  balance : JSNum
  deriving DecidableEq

/-- The function-valued properties that `accounts` inherits from `Object.prototype`. -/
def objectPrototypeMethods : List String :=
  ["constructor", "__defineGetter__", "__defineSetter__", "hasOwnProperty",
   "__lookupGetter__", "__lookupSetter__", "isPrototypeOf", "propertyIsEnumerable",
   "toString", "valueOf", "toLocaleString"]

/-- What `accounts[key]` evaluates to. -/
inductive Ref
  | undefined
  | account (a : Account)
  | method (name : String)
  | objectPrototype
  | number (n : JSNum)
  deriving DecidableEq

/-- Truthiness of `accounts[key]`, as tested by `!account` and by the `while` condition. -/
def Ref.truthy : Ref → Bool
  | .undefined => false
  | .account _ => true
  | .method _ => true
  | .objectPrototype => true
  | .number n => n.truthy

/-- The state the handlers read and write: the own properties of `accounts` in
insertion order, the `balance` property of `Object.prototype` (absent until a
handler assigns it through the key `__proto__`), and the own `balance`
properties of the inherited methods. -/
structure State where
  accounts : List (String × Account)
  protoBalance : Option JSNum
  methodBalance : List (String × JSNum)
  deriving DecidableEq

/-- The state at start-up: `const accounts = {}`. -/
def State.init : State := ⟨[], none, []⟩

/-- Own property lookup in an insertion-ordered property list. -/
def getOwn {β : Type} : List (String × β) → String → Option β
  | [], _ => none
  | (k, v) :: rest, key => if k = key then some v else getOwn rest key

/-- Replace the value of the own property `key`, if there is one. -/
def modifyOwn {β : Type} (f : β → β) : List (String × β) → String → List (String × β)
  | [], _ => []
  | (k, v) :: rest, key =>
    if k = key then (k, f v) :: rest else (k, v) :: modifyOwn f rest key

/-- Property assignment `obj[key] = v`: overwrite an own property in place, or add it last. -/
def putOwn {β : Type} (l : List (String × β)) (key : String) (v : β) : List (String × β) :=
  match getOwn l key with
  | some _ => modifyOwn (fun _ => v) l key
  | none => l ++ [(key, v)]

/-- The operator `delete obj[key]`. -/
def deleteOwn {β : Type} (l : List (String × β)) (key : String) : List (String × β) :=
  l.filter (fun p => decide (p.1 ≠ key))

/-- The expression `accounts[key]`: an own property, else what `Object.prototype` provides. -/
def State.get (s : State) (key : String) : Ref :=
  match getOwn s.accounts key with
  | some a => .account a
  | none =>
    if key ∈ objectPrototypeMethods then .method key
    else if key = "__proto__" then .objectPrototype
    else if key = "balance" then
      match s.protoBalance with
      | some n => .number n
      | none => .undefined
    else .undefined

/-- The expression `account.balance` for `account = accounts[key]`; `none` is `undefined`. -/
def State.readBalance (s : State) : Ref → Option JSNum
  | .undefined => none
  | .account a => some a.balance
  | .method f =>
    match getOwn s.methodBalance f with
    | some n => some n
    | none => s.protoBalance
  | .objectPrototype => s.protoBalance
  | .number _ => s.protoBalance

/-- Conversion of `account.balance` to a number by an arithmetic or relational operator. -/
def toNumber : Option JSNum → JSNum
  | some n => n
  | none => .nan

/-- The assignment `account.balance = v` for `account = accounts[key]`.  On a
primitive number the assignment has no effect (the file is not in strict mode). -/
def State.writeBalance (s : State) (key : String) (account : Ref) (v : JSNum) : State :=
  match account with
  | .undefined => s
  | .account _ => { s with accounts := modifyOwn (fun a => { a with balance := v }) s.accounts key }
  | .method f => { s with methodBalance := putOwn s.methodBalance f v }
  | .objectPrototype => { s with protoBalance := some v }
  | .number _ => s

/-! ## Responses -/

/-- A response body. -/
inductive Body
  | json (r : Ref)
  | list (l : List Account)
  | error (msg : String)
  | empty
  | errorPage
  deriving DecidableEq

/-- A response: `res.status(status)` and the body sent. -/
structure Response where
  status : Nat
  body : Body
  deriving DecidableEq

/-! ## Utility functions -/

/-- A value returned by `Math.random()`: a binary64 number `mant / 2^exp` in `[0, 1)`. -/
structure Draw where
  mant : Nat
  exp : Nat
  mant_lt : mant < 2 ^ 53
  lt_one : mant < 2 ^ exp
  exp_le : exp ≤ 1074

/-- The number a draw stands for. -/
def Draw.val (r : Draw) : ℚ := (r.mant : ℚ) / ((2 ^ r.exp : ℕ) : ℚ)

/-- The expression `10000000 + Math.random() * 90000000`: a binary64 product,
then a binary64 sum. -/
def candidateSum (r : Draw) : JSNum :=
  JSNum.add (.fin 10000000) (roundDouble (r.val * 90000000))

/-- The expression `Math.floor(10000000 + Math.random() * 90000000)`.  The sum
is finite for every draw (`candidateSum_bounds`), so only the first case occurs. -/
def candidate (r : Draw) : Nat :=
  match candidateSum r with
  | .fin x => Int.toNat ⌊x⌋
  | _ => 0

/-- The function `generateAccountNumber`: one loop iteration per unit of fuel,
each taking the next value of `Math.random()`. -/
def generateAccountNumber (s : State) (random : Nat → Draw) : Nat → Option String
  | 0 => none
  | fuel + 1 =>
    let accountNumber := toString (candidate (random 0))
    if (s.get accountNumber).truthy then
      generateAccountNumber s (fun i => random (i + 1)) fuel
    else some accountNumber

/-! ## Admin middleware -/

/-- The constant `ADMIN_TOKEN = process.env.ADMIN_TOKEN || 'supersecrettoken'`. -/
def ADMIN_TOKEN (env : Option String) : String :=
  match env with
  | some v => if v = "" then "supersecrettoken" else v
  | none => "supersecrettoken"

/-- The answer of `verifyAdminToken` to a request it stops. -/
def accessDenied : Response := ⟨403, .error "Access Denied: Invalid admin token"⟩

/-- The middleware `verifyAdminToken`: `token` is the header `x-admin-token`, `next` the route. -/
def verifyAdminToken (env : Option String) (token : Option String) (s : State)
    (next : State → State × Response) : State × Response :=
  match token with
  | none => (s, accessDenied)
  | some t =>
    if t = "" ∨ t ≠ ADMIN_TOKEN env then (s, accessDenied) else next s

/-! ## Route handlers -/

/-- The answer `404 Account not found`. -/
def notFound : Response := ⟨404, .error "Account not found"⟩

/-- The answer of the framework to a handler that throws. -/
def internalError : Response := ⟨500, .errorPage⟩

/-- Handler of `POST /create`.  The account is stored before the template
literal of `console.log` converts `name` to a string. -/
def postCreate (s : State) (name : JSVal) (random : Nat → Draw) (fuel : Nat) :
    Option (State × Response) :=
  if !name.truthy then some (s, ⟨400, .error "Account holder name is required"⟩)
  else
    match generateAccountNumber s random fuel with
    | none => none
    | some accountNumber =>
      let s' := { s with
        accounts := putOwn s.accounts accountNumber ⟨accountNumber, name, .fin 0⟩ }
      if !name.printable then some (s', internalError)
      else some (s', ⟨201, .json (s'.get accountNumber)⟩)

/-- Handler of `GET /get/:accountNumber`. -/
def getAccount (s : State) (accountNumber : String) : State × Response :=
  let account := s.get accountNumber
  if !account.truthy then (s, notFound)
  else (s, ⟨200, .json account⟩)

/-- Handler of `POST /deposit`. -/
def postDeposit (s : State) (accountNumber : String) (amount : JSVal) : State × Response :=
  let account := s.get accountNumber
  if !account.truthy then (s, notFound)
  else
    match amount with
    | .num a =>
      if a.le (.fin 0) then (s, ⟨400, .error "Invalid deposit amount"⟩)
      else
        let s' := s.writeBalance accountNumber account ((toNumber (s.readBalance account)).add a)
        (s', ⟨200, .json (s'.get accountNumber)⟩)
    | _ => (s, ⟨400, .error "Invalid deposit amount"⟩)

/-- Handler of `POST /withdraw`. -/
def postWithdraw (s : State) (accountNumber : String) (amount : JSVal) : State × Response :=
  let account := s.get accountNumber
  if !account.truthy then (s, notFound)
  else
    match amount with
    | .num a =>
      if a.le (.fin 0) then (s, ⟨400, .error "Invalid withdrawal amount"⟩)
      else if (toNumber (s.readBalance account)).lt a then
        (s, ⟨400, .error "Insufficient funds"⟩)
      else
        let s' := s.writeBalance accountNumber account ((toNumber (s.readBalance account)).sub a)
        (s', ⟨200, .json (s'.get accountNumber)⟩)
    | _ => (s, ⟨400, .error "Invalid withdrawal amount"⟩)

/-! ## Enumeration order of `accounts` -/

/-- The number a string of decimal digits denotes. -/
def parseDigits (cs : List Char) : Nat :=
  cs.foldl (fun n c => n * 10 + (c.toNat - 48)) 0

/-- The array index a property key denotes, if it is one: the key is the
canonical decimal form of an integer below `2^32 - 1`. -/
def arrayIndex (key : String) : Option Nat :=
  let n := parseDigits key.data
  if toString n = key ∧ n < 4294967295 then some n else none

/-- The expression `Object.values(accounts)`: the values of the own properties,
array-index keys first in ascending numeric order, then the other keys in
insertion order. -/
def objectValues (accounts : List (String × Account)) : List Account :=
  let indexed := accounts.filterMap (fun p => (arrayIndex p.1).map (fun n => (n, p.2)))
  let named := accounts.filter (fun p => (arrayIndex p.1).isNone)
  (indexed.insertionSort (fun x y => x.1 ≤ y.1)).map (fun x => x.2) ++ named.map (fun p => p.2)

/-! ## Admin-only route handlers -/

/-- Handler of `GET /admin/list`. -/
def adminList (env : Option String) (token : Option String) (s : State) : State × Response :=
  verifyAdminToken env token s (fun s => (s, ⟨200, .list (objectValues s.accounts)⟩))

/-- The route of `POST /admin/reset`, behind the middleware. -/
def resetRoute (accountNumber : String) (s : State) : State × Response :=
  let account := s.get accountNumber
  if !account.truthy then (s, notFound)
  else
    let s' := s.writeBalance accountNumber account (.fin 0)
    (s', ⟨200, .json (s'.get accountNumber)⟩)

/-- Handler of `POST /admin/reset`. -/
def adminReset (env : Option String) (token : Option String) (s : State)
    (accountNumber : String) : State × Response :=
  verifyAdminToken env token s (resetRoute accountNumber)

/-- The route of `DELETE /admin/delete/:accountNumber`, behind the middleware. -/
def deleteRoute (accountNumber : String) (s : State) : State × Response :=
  if !(s.get accountNumber).truthy then (s, notFound)
  else ({ s with accounts := deleteOwn s.accounts accountNumber }, ⟨204, .empty⟩)

/-- Handler of `DELETE /admin/delete/:accountNumber`. -/
def adminDelete (env : Option String) (token : Option String) (s : State)
    (accountNumber : String) : State × Response :=
  verifyAdminToken env token s (deleteRoute accountNumber)

/-! ## The server as a transition system -/

/-- A request to one of the seven routes. -/
inductive Request
  | create (name : JSVal)
  | get (accountNumber : String)
  | deposit (accountNumber : String) (amount : JSVal)
  | withdraw (accountNumber : String) (amount : JSVal)
  | adminList (token : Option String)
  | adminReset (token : Option String) (accountNumber : String)
  | adminDelete (token : Option String) (accountNumber : String)

/-- One request handled: the state after it and the response, or `none` when
`/create` has not found a free number within `fuel` draws. -/
def handle (env : Option String) (s : State) (random : Nat → Draw) (fuel : Nat) :
    Request → Option (State × Response)
  | .create name => postCreate s name random fuel
  | .get accountNumber => some (getAccount s accountNumber)
  | .deposit accountNumber amount => some (postDeposit s accountNumber amount)
  | .withdraw accountNumber amount => some (postWithdraw s accountNumber amount)
  | .adminList token => some (adminList env token s)
  | .adminReset token accountNumber => some (adminReset env token s accountNumber)
  | .adminDelete token accountNumber => some (adminDelete env token s accountNumber)

/-- The states the server can be in: the initial one and every state a handled
request leads to from a reachable one. -/
inductive Reachable (env : Option String) : State → Prop
  | init : Reachable env State.init
  | step {s s' : State} {resp : Response} (req : Request) (random : Nat → Draw) (fuel : Nat) :
      Reachable env s → handle env s random fuel req = some (s', resp) → Reachable env s'

/-- The live accounts: the values of the own properties of `accounts`. -/
def State.live (s : State) (key : String) (a : Account) : Prop := getOwn s.accounts key = some a

/-- The comparison `balance >= 0`. -/
def nonNegative (n : JSNum) : Bool := JSNum.le (.fin 0) n

/-! ## Sample data -/

/-- The draw `Math.random() = 0`, whose candidate is `10000000`. -/
def Draw.zero : Draw := ⟨0, 0, by decide, by decide, by decide⟩

/-- The account `10000000` of Alice with a given balance. -/
def alice (b : JSNum) : Account := ⟨"10000000", .str "Alice", b⟩

/-- A registry holding only Alice's account. -/
def bank (b : JSNum) : State := ⟨[("10000000", alice b)], none, []⟩

/-- One account under every number from `10000000` to `99999999`. -/
def fullAccounts : List (String × Account) :=
  (List.range 90000000).map (fun i =>
    (toString (10000000 + i), ⟨toString (10000000 + i), .str "x", .fin 0⟩))

/-- A registry in which every number from `10000000` to `99999999` is in use. -/
def fullRegistry : State := ⟨fullAccounts, none, []⟩

/-- A string of decimal digits only. -/
def isNumeral (key : String) : Bool := key.data.all Char.isDigit

/-- The account whose balance a request can change. -/
def Request.target : Request → Option String
  | .deposit key _ => some key
  | .withdraw key _ => some key
  | .adminReset _ key => some key
  | _ => none

/-- What every reachable state satisfies: each own key of `accounts` is a
generated number and is the `accountNumber` stored under it, and no key occurs twice. -/
def State.WellFormed (s : State) : Prop :=
  (∀ k a, (k, a) ∈ s.accounts → a.accountNumber = k ∧ ∃ r : Draw, k = toString (candidate r)) ∧
  (s.accounts.map Prod.fst).Nodup

/-- The state after `n` successive deposits of `amount` on `accountNumber`. -/
def depositTimes (accountNumber : String) (amount : JSVal) : Nat → State → State
  | 0, s => s
  | n + 1, s => depositTimes accountNumber amount n (postDeposit s accountNumber amount).1

/-- The result of `n` successive binary64 additions of `q`, starting from `x`:
each sum is rounded to nearest, ties to even, and an infinity or `NaN` stays. -/
def roundedSum (q : ℚ) : Nat → JSNum → JSNum
  | 0, x => x
  | n + 1, .fin b => roundedSum q n (roundDouble (b + q))
  | _ + 1, x => x

/-- The draw `Math.random() = 0.5`, whose candidate is `55000000`. -/
def Draw.half : Draw := ⟨1, 1, by decide, by decide, by decide⟩

/-- A registry in which account `55000000` was created before account `10000000`. -/
def twoAccounts : State :=
  ⟨[("55000000", ⟨"55000000", .str "Bob", .fin 0⟩), ("10000000", alice (.fin 0))], none, []⟩

/-! ## Lemmas on own properties -/

theorem getOwn_modifyOwn_same {β : Type} (f : β → β) (l : List (String × β)) (key : String) :
    getOwn (modifyOwn f l key) key = (getOwn l key).map f := by
  induction l with
  | nil => rfl
  | cons p rest ih =>
    obtain ⟨k, v⟩ := p
    by_cases h : k = key
    · simp [modifyOwn, getOwn, h]
    · simp [modifyOwn, getOwn, h, ih]

theorem getOwn_modifyOwn_other {β : Type} (f : β → β) (l : List (String × β)) {key key' : String}
    (hne : key' ≠ key) : getOwn (modifyOwn f l key) key' = getOwn l key' := by
  induction l with
  | nil => rfl
  | cons p rest ih =>
    obtain ⟨k, v⟩ := p
    by_cases h : k = key
    · subst h
      have h' : ¬ k = key' := fun e => hne e.symm
      simp [modifyOwn, getOwn, h']
    · by_cases h' : k = key'
      · subst h'
        simp [modifyOwn, getOwn, h]
      · simp [modifyOwn, getOwn, h, h', ih]

theorem map_fst_modifyOwn {β : Type} (f : β → β) (l : List (String × β)) (key : String) :
    (modifyOwn f l key).map Prod.fst = l.map Prod.fst := by
  induction l with
  | nil => rfl
  | cons p rest ih =>
    obtain ⟨k, v⟩ := p
    by_cases h : k = key
    · simp [modifyOwn, h]
    · simp [modifyOwn, h, ih]

theorem getOwn_deleteOwn_same {β : Type} (l : List (String × β)) (key : String) :
    getOwn (deleteOwn l key) key = none := by
  induction l with
  | nil => rfl
  | cons p rest ih =>
    obtain ⟨k, v⟩ := p
    by_cases h : k = key
    · simpa [deleteOwn, List.filter, h] using ih
    · simpa [deleteOwn, List.filter, h, getOwn] using ih

theorem getOwn_deleteOwn_other {β : Type} (l : List (String × β)) {key key' : String}
    (hne : key' ≠ key) : getOwn (deleteOwn l key) key' = getOwn l key' := by
  induction l with
  | nil => rfl
  | cons p rest ih =>
    obtain ⟨k, v⟩ := p
    have ih' : getOwn (List.filter (fun p => decide (p.1 ≠ key)) rest) key' = getOwn rest key' := ih
    by_cases h : k = key
    · subst h
      have h' : ¬ k = key' := fun e => hne e.symm
      simp only [deleteOwn, List.filter, ne_eq, not_true_eq_false, decide_False, getOwn, h',
        if_false]
      exact ih'
    · by_cases h' : k = key'
      · subst h'
        simp [deleteOwn, List.filter, h, getOwn]
      · simp only [deleteOwn, List.filter, ne_eq, h, not_false_eq_true, decide_True, getOwn, h',
          if_false]
        exact ih'

theorem getOwn_append_single {β : Type} (l : List (String × β)) (key key' : String) (v : β) :
    getOwn (l ++ [(key, v)]) key' =
      match getOwn l key' with
      | some w => some w
      | none => if key = key' then some v else none := by
  induction l with
  | nil => simp [getOwn]
  | cons p rest ih =>
    obtain ⟨k, w⟩ := p
    by_cases h : k = key'
    · simp [getOwn, h]
    · simpa [getOwn, h] using ih

theorem getOwn_mem {β : Type} {l : List (String × β)} {key : String} {v : β}
    (h : getOwn l key = some v) : (key, v) ∈ l := by
  induction l with
  | nil => simp [getOwn] at h
  | cons p rest ih =>
    obtain ⟨k, w⟩ := p
    by_cases hk : k = key
    · simp [getOwn, hk] at h
      simp [hk, h]
    · simp [getOwn, hk] at h
      exact List.mem_cons_of_mem _ (ih h)

theorem getOwn_isSome_of_mem {β : Type} {l : List (String × β)} {key : String} {v : β}
    (h : (key, v) ∈ l) : (getOwn l key).isSome = true := by
  induction l with
  | nil => simp at h
  | cons p rest ih =>
    obtain ⟨k, w⟩ := p
    by_cases hk : k = key
    · simp [getOwn, hk]
    · have : (key, v) ∈ rest := by
        rcases List.mem_cons.mp h with e | e
        · exact absurd (congrArg Prod.fst e).symm hk
        · exact e
      simpa [getOwn, hk] using ih this

theorem get_of_live {s : State} {key : String} {a : Account} (h : s.live key a) :
    s.get key = .account a := by
  unfold State.live at h
  simp [State.get, h]

/-! ## Lemmas on the handlers at a live account -/

theorem postDeposit_live {s : State} {key : String} {a : Account} (h : s.live key a)
    {q : ℚ} (hq : 0 < q) :
    postDeposit s key (.num (.fin q)) =
      ({ s with accounts :=
          modifyOwn (fun x => { x with balance := a.balance.add (.fin q) }) s.accounts key },
       ⟨200, .json (.account { a with balance := a.balance.add (.fin q) })⟩) := by
  have hl : getOwn s.accounts key = some a := h
  simp [postDeposit, get_of_live h, Ref.truthy, JSNum.le, not_le.mpr hq, State.writeBalance,
    State.readBalance, toNumber, State.get, getOwn_modifyOwn_same, hl]

theorem postWithdraw_live_ok {s : State} {key : String} {a : Account} (h : s.live key a)
    {q : ℚ} (hq : 0 < q) (hlt : a.balance.lt (.fin q) = false) :
    postWithdraw s key (.num (.fin q)) =
      ({ s with accounts :=
          modifyOwn (fun x => { x with balance := a.balance.sub (.fin q) }) s.accounts key },
       ⟨200, .json (.account { a with balance := a.balance.sub (.fin q) })⟩) := by
  have hl : getOwn s.accounts key = some a := h
  simp [postWithdraw, get_of_live h, Ref.truthy, JSNum.le, not_le.mpr hq, State.writeBalance,
    State.readBalance, toNumber, State.get, getOwn_modifyOwn_same, hl, hlt]

theorem postWithdraw_live_short {s : State} {key : String} {a : Account} (h : s.live key a)
    {q : ℚ} (hq : 0 < q) (hlt : a.balance.lt (.fin q) = true) :
    postWithdraw s key (.num (.fin q)) = (s, ⟨400, .error "Insufficient funds"⟩) := by
  simp [postWithdraw, get_of_live h, Ref.truthy, JSNum.le, not_le.mpr hq,
    State.readBalance, toNumber, hlt]

theorem resetRoute_live {s : State} {key : String} {a : Account} (h : s.live key a) :
    resetRoute key s =
      ({ s with accounts := modifyOwn (fun x => { x with balance := .fin 0 }) s.accounts key },
       ⟨200, .json (.account { a with balance := .fin 0 })⟩) := by
  have hl : getOwn s.accounts key = some a := h
  simp [resetRoute, get_of_live h, Ref.truthy, State.writeBalance, State.get,
    getOwn_modifyOwn_same, hl]

theorem JSNum.lt_false_of_le {a b : JSNum} (h : a.le b = true) : b.lt a = false := by
  cases a <;> cases b <;> simp_all [JSNum.le, JSNum.lt]

theorem ADMIN_TOKEN_ne_empty (env : Option String) : ADMIN_TOKEN env ≠ "" := by
  unfold ADMIN_TOKEN
  cases env with
  | none => decide
  | some v =>
    by_cases h : v = ""
    · simp [h]
    · simp [h]

theorem verifyAdminToken_pass (env : Option String) (s : State)
    (next : State → State × Response) :
    verifyAdminToken env (some (ADMIN_TOKEN env)) s next = next s := by
  simp [verifyAdminToken, ADMIN_TOKEN_ne_empty]

theorem verifyAdminToken_stop (env : Option String) (token : Option String) (s : State)
    (next : State → State × Response) (h : token ≠ some (ADMIN_TOKEN env)) :
    verifyAdminToken env token s next = (s, accessDenied) := by
  cases token with
  | none => rfl
  | some t =>
    have ht : t ≠ ADMIN_TOKEN env := fun e => h (congrArg some e)
    simp [verifyAdminToken, ht]

/-! ## Generated account numbers -/

theorem digitChar_isDigit : ∀ d, d < 10 → (Nat.digitChar d).isDigit = true := by decide

theorem toDigitsCore_isDigit (fuel : Nat) : ∀ (n : Nat) (ds : List Char),
    (∀ c ∈ ds, c.isDigit = true) → ∀ c ∈ Nat.toDigitsCore 10 fuel n ds, c.isDigit = true := by
  induction fuel with
  | zero =>
    intro n ds h c hc
    simp only [Nat.toDigitsCore] at hc
    exact h c hc
  | succ fuel ih =>
    intro n ds h c hc
    have hd : ∀ c ∈ Nat.digitChar (n % 10) :: ds, c.isDigit = true := by
      intro c hc
      rcases List.mem_cons.mp hc with e | e
      · rw [e]
        exact digitChar_isDigit _ (Nat.mod_lt _ (by decide))
      · exact h c e
    simp only [Nat.toDigitsCore] at hc
    split at hc
    · exact hd c hc
    · exact ih _ _ hd c hc

theorem isNumeral_toString (n : Nat) : isNumeral (toString n) = true := by
  have h : (toString n).data = Nat.toDigits 10 n := rfl
  simp only [isNumeral, h, List.all_eq_true]
  intro c hc
  exact toDigitsCore_isDigit _ _ _ (by simp) c hc

/-- A string of digits is not the name of a property of `Object.prototype`, so
`accounts[key]` is decided by the own properties alone. -/
theorem get_of_isNumeral (s : State) {key : String} (h : isNumeral key = true) :
    s.get key = match getOwn s.accounts key with
      | some a => .account a
      | none => .undefined := by
  have h1 : key ∉ objectPrototypeMethods := by
    intro hm
    have : ∀ k ∈ objectPrototypeMethods, isNumeral k = false := by decide
    rw [this key hm] at h
    exact Bool.noConfusion h
  have h2 : key ≠ "__proto__" := by
    intro e
    rw [e] at h
    revert h
    decide
  have h3 : key ≠ "balance" := by
    intro e
    rw [e] at h
    revert h
    decide
  simp [State.get, h1, h2, h3]

theorem truthy_get_toString (s : State) (n : Nat) :
    (s.get (toString n)).truthy = (getOwn s.accounts (toString n)).isSome := by
  rw [get_of_isNumeral s (isNumeral_toString n)]
  cases getOwn s.accounts (toString n) <;> rfl

theorem pow2_eq_zpow (k : ℤ) : pow2 k = (2 : ℚ) ^ k := by
  unfold pow2
  split
  · rename_i h
    have e : k = (k.toNat : ℤ) := (Int.toNat_of_nonneg h).symm
    conv_rhs => rw [e]
    rw [zpow_natCast]
    push_cast
    rfl
  · rename_i h
    have hk : 0 ≤ -k := by omega
    have e : k = -((-k).toNat : ℤ) := by rw [Int.toNat_of_nonneg hk]; ring
    conv_rhs => rw [e]
    rw [zpow_neg, zpow_natCast]
    push_cast
    rw [one_div]

theorem bitLength_spec : ∀ (fuel n : Nat), 0 < n → n ≤ fuel →
    1 ≤ bitLength fuel n ∧ 2 ^ (bitLength fuel n - 1) ≤ n ∧ n < 2 ^ bitLength fuel n := by
  intro fuel
  induction fuel with
  | zero => intro n h1 h2; omega
  | succ fuel ih =>
    intro n h1 h2
    have hn : n ≠ 0 := by omega
    simp only [bitLength, hn, if_false]
    by_cases h : n / 2 = 0
    · have hb : bitLength fuel (n / 2) = 0 := by
        rw [h]
        cases fuel <;> simp [bitLength]
      rw [hb]
      have : n = 1 := by omega
      subst this
      simp
    · obtain ⟨i1, i2, i3⟩ := ih (n / 2) (by omega) (by omega)
      refine ⟨by omega, ?_, ?_⟩
      · have e : bitLength fuel (n / 2) + 1 - 1 = (bitLength fuel (n / 2) - 1) + 1 := by omega
        rw [e, pow_succ]
        omega
      · rw [pow_succ]
        omega

theorem binaryExponent_spec {q : ℚ} (hq : 0 < q) :
    (2 : ℚ) ^ binaryExponent q ≤ q ∧ q < (2 : ℚ) ^ (binaryExponent q + 1) := by
  have hnum : 0 < q.num := Rat.num_pos.mpr hq
  have hden : 0 < q.den := q.den_pos
  have hna : 0 < q.num.natAbs := Int.natAbs_pos.mpr hnum.ne'
  obtain ⟨a1, a2, a3⟩ := bitLength_spec q.num.natAbs q.num.natAbs hna (le_refl _)
  obtain ⟨b1, b2, b3⟩ := bitLength_spec q.den q.den hden (le_refl _)
  set a := bitLength q.num.natAbs q.num.natAbs
  set b := bitLength q.den q.den
  have hqe : q = (q.num.natAbs : ℚ) / (q.den : ℚ) := by
    have h1 : (q.num.natAbs : ℤ) = q.num := Int.natAbs_of_nonneg hnum.le
    have h2 : ((q.num.natAbs : ℕ) : ℚ) = (q.num : ℚ) :=
      calc ((q.num.natAbs : ℕ) : ℚ) = (((q.num.natAbs : ℕ) : ℤ) : ℚ) := (Int.cast_natCast _).symm
        _ = (q.num : ℚ) := by rw [h1]
    rw [h2]
    exact (Rat.num_div_den q).symm
  have hdq : (0 : ℚ) < q.den := by exact_mod_cast hden
  -- bounds on numerator and denominator as rationals
  have A2 : (2 : ℚ) ^ ((a : ℤ) - 1) ≤ (q.num.natAbs : ℚ) := by
    have : ((a : ℤ) - 1) = ((a - 1 : ℕ) : ℤ) := by omega
    rw [this, zpow_natCast]
    exact_mod_cast a2
  have A3 : (q.num.natAbs : ℚ) < (2 : ℚ) ^ (a : ℤ) := by
    rw [zpow_natCast]
    exact_mod_cast a3
  have B2 : (2 : ℚ) ^ ((b : ℤ) - 1) ≤ (q.den : ℚ) := by
    have : ((b : ℤ) - 1) = ((b - 1 : ℕ) : ℤ) := by omega
    rw [this, zpow_natCast]
    exact_mod_cast b2
  have B3 : (q.den : ℚ) < (2 : ℚ) ^ (b : ℤ) := by
    rw [zpow_natCast]
    exact_mod_cast b3
  have two : (0 : ℚ) < 2 := by norm_num
  -- q lies strictly between 2^(k-1) and 2^(k+1)
  have hlow : (2 : ℚ) ^ ((a : ℤ) - b - 1) < q := by
    rw [hqe, lt_div_iff₀ hdq]
    calc (2 : ℚ) ^ ((a : ℤ) - b - 1) * (q.den : ℚ)
        < (2 : ℚ) ^ ((a : ℤ) - b - 1) * (2 : ℚ) ^ (b : ℤ) :=
          mul_lt_mul_of_pos_left B3 (zpow_pos two _)
      _ = (2 : ℚ) ^ ((a : ℤ) - 1) := by
          rw [← zpow_add₀ two.ne']
          congr 1
          ring
      _ ≤ _ := A2
  have hhigh : q < (2 : ℚ) ^ ((a : ℤ) - b + 1) := by
    rw [hqe, div_lt_iff₀ hdq]
    calc (q.num.natAbs : ℚ) < (2 : ℚ) ^ (a : ℤ) := A3
      _ = (2 : ℚ) ^ ((a : ℤ) - b + 1) * (2 : ℚ) ^ ((b : ℤ) - 1) := by
          rw [← zpow_add₀ two.ne']
          congr 1
          ring
      _ ≤ (2 : ℚ) ^ ((a : ℤ) - b + 1) * (q.den : ℚ) :=
          mul_le_mul_of_nonneg_left B2 (zpow_pos two _).le
  unfold binaryExponent
  simp only
  rw [pow2_eq_zpow]
  split
  · rename_i h
    exact ⟨h, hhigh⟩
  · rename_i h
    refine ⟨hlow.le, ?_⟩
    have e : (a : ℤ) - b - 1 + 1 = (a : ℤ) - b := by ring
    rw [e]
    exact not_le.mp h

theorem roundHalfEven_le {m : ℚ} {K : ℤ} (h : m < K + 1 / 2) : roundHalfEven m ≤ K := by
  have hf : ⌊m⌋ ≤ K := by
    have : ⌊m⌋ < K + 1 := by
      rw [Int.floor_lt]
      push_cast
      linarith
    omega
  unfold roundHalfEven
  by_cases hfk : ⌊m⌋ = K
  · have : m - ⌊m⌋ < 1 / 2 := by
      rw [hfk]
      linarith
    rw [if_pos this, hfk]
  · have hlt : ⌊m⌋ + 1 ≤ K := by omega
    split
    · exact hf
    · split
      · exact hlt
      · split
        · exact hf
        · exact hlt

theorem roundHalfEven_ge {m : ℚ} {K : ℤ} (h : (K : ℚ) ≤ m) : K ≤ roundHalfEven m := by
  have hf : K ≤ ⌊m⌋ := Int.le_floor.mpr h
  unfold roundHalfEven
  split
  · exact hf
  · split
    · omega
    · split
      · exact hf
      · omega

/-- The rounding of a positive number, spelled out: `x / ulp` rounded to an
integer, times `ulp`, unless that reaches `2^1024`. -/
theorem roundDouble_pos {x : ℚ} (hx : 0 < x) :
    roundDouble x =
      if pow2 1024 ≤
          roundHalfEven (x / pow2 (max (binaryExponent x) (-1022) - 52)) *
            pow2 (max (binaryExponent x) (-1022) - 52) then .pinf
      else .fin (roundHalfEven (x / pow2 (max (binaryExponent x) (-1022) - 52)) *
            pow2 (max (binaryExponent x) (-1022) - 52)) := by
  have hu : 0 < pow2 (max (binaryExponent x) (-1022) - 52) := by
    rw [pow2_eq_zpow]
    exact zpow_pos (by norm_num) _
  have h0 : (0 : ℚ) ≤ roundHalfEven (x / pow2 (max (binaryExponent x) (-1022) - 52)) *
      pow2 (max (binaryExponent x) (-1022) - 52) := by
    apply mul_nonneg _ hu.le
    have : (0 : ℤ) ≤ roundHalfEven (x / pow2 (max (binaryExponent x) (-1022) - 52)) :=
      roundHalfEven_ge (by
        push_cast
        exact div_nonneg hx.le hu.le)
    exact_mod_cast this
  have h1024 : 0 < pow2 1024 := by
    rw [pow2_eq_zpow]
    exact zpow_pos (by norm_num) _
  unfold roundDouble
  rw [if_neg hx.ne', abs_of_pos hx]
  simp only
  split
  · rfl
  · rw [if_neg (by linarith)]

/-- Below `2^27` the grid of binary64 values contains every multiple of `2^-26`:
a number between two such multiples is rounded to a value between them. -/
theorem roundDouble_between {x : ℚ} (hx : 0 < x) (h27 : x < 134217728) (A B : ℤ)
    (hA : (A : ℚ) / 67108864 ≤ x) (hB : x ≤ (B : ℚ) / 67108864)
    (hB27 : (B : ℚ) / 67108864 ≤ 134217728) :
    ∃ v : ℚ, roundDouble x = .fin v ∧ (A : ℚ) / 67108864 ≤ v ∧ v ≤ (B : ℚ) / 67108864 := by
  obtain ⟨he1, _⟩ := binaryExponent_spec hx
  have two : (1 : ℚ) < 2 := by norm_num
  have he : binaryExponent x < 27 := by
    have h : (2 : ℚ) ^ binaryExponent x < (2 : ℚ) ^ (27 : ℤ) := by
      have e : (2 : ℚ) ^ (27 : ℤ) = 134217728 := by norm_num
      rw [e]
      exact lt_of_le_of_lt he1 h27
    exact (zpow_lt_zpow_iff_right₀ two).mp h
  set j : ℤ := max (binaryExponent x) (-1022) - 52 with hj
  have hj26 : j ≤ -26 := by
    have : max (binaryExponent x) (-1022) ≤ 26 := max_le (by omega) (by norm_num)
    omega
  have hu : pow2 j = (2 : ℚ) ^ j := pow2_eq_zpow j
  have hupos : (0 : ℚ) < (2 : ℚ) ^ j := zpow_pos (by norm_num) _
  -- one step of `2^-26` is a whole number of steps of the grid
  have hstep : (1 : ℚ) / 67108864 = ((2 ^ (-26 - j).toNat : ℕ) : ℚ) * (2 : ℚ) ^ j := by
    have e1 : ((2 ^ (-26 - j).toNat : ℕ) : ℚ) = (2 : ℚ) ^ (-26 - j) := by
      push_cast
      rw [← zpow_natCast, Int.toNat_of_nonneg (by omega)]
    rw [e1, ← zpow_add₀ (by norm_num : (2 : ℚ) ≠ 0)]
    have e2 : -26 - j + j = -26 := by ring
    rw [e2]
    norm_num
  have hgrid : ∀ N : ℤ, (N : ℚ) / 67108864 =
      ((N * (2 ^ (-26 - j).toNat : ℕ) : ℤ) : ℚ) * (2 : ℚ) ^ j := by
    intro N
    have : (N : ℚ) / 67108864 = N * (1 / 67108864) := by ring
    rw [this, hstep]
    push_cast
    ring
  rw [roundDouble_pos hx]
  simp only [← hj, hu]
  have hlow : ((A * (2 ^ (-26 - j).toNat : ℕ) : ℤ) : ℚ) ≤ x / (2 : ℚ) ^ j := by
    rw [le_div_iff₀ hupos, ← hgrid]
    exact hA
  have hhigh : x / (2 : ℚ) ^ j < ((B * (2 ^ (-26 - j).toNat : ℕ) : ℤ) : ℚ) + 1 / 2 := by
    have : x / (2 : ℚ) ^ j ≤ ((B * (2 ^ (-26 - j).toNat : ℕ) : ℤ) : ℚ) := by
      rw [div_le_iff₀ hupos, ← hgrid]
      exact hB
    linarith
  have r1 := roundHalfEven_ge hlow
  have r2 := roundHalfEven_le hhigh
  have v1 : (A : ℚ) / 67108864 ≤ roundHalfEven (x / (2 : ℚ) ^ j) * (2 : ℚ) ^ j := by
    rw [hgrid A]
    exact mul_le_mul_of_nonneg_right (by exact_mod_cast r1) hupos.le
  have v2 : (roundHalfEven (x / (2 : ℚ) ^ j) : ℚ) * (2 : ℚ) ^ j ≤ (B : ℚ) / 67108864 := by
    rw [hgrid B]
    exact mul_le_mul_of_nonneg_right (by exact_mod_cast r2) hupos.le
  have hbig : ¬ pow2 1024 ≤ roundHalfEven (x / (2 : ℚ) ^ j) * (2 : ℚ) ^ j := by
    rw [pow2_eq_zpow]
    have : (134217728 : ℚ) < (2 : ℚ) ^ (1024 : ℤ) := by
      have e : (134217728 : ℚ) = (2 : ℚ) ^ (27 : ℤ) := by norm_num
      rw [e]
      exact zpow_lt_zpow_right₀ two (by norm_num)
    intro h
    linarith
  rw [if_neg hbig]
  exact ⟨_, rfl, v1, v2⟩

/-- From `2^26` up to `2^27` the grid is exactly the multiples of `2^-26`: a
number less than half a step above such a multiple is rounded to it or below. -/
theorem roundDouble_below {x : ℚ} (h26 : 67108864 ≤ x) (h27 : x < 134217728) (B : ℤ)
    (hB : x < ((B : ℚ) + 1 / 2) / 67108864) (hB27 : (B : ℚ) / 67108864 ≤ 134217728) :
    ∃ v : ℚ, roundDouble x = .fin v ∧ 0 ≤ v ∧ v ≤ (B : ℚ) / 67108864 := by
  have hx : 0 < x := by linarith
  obtain ⟨he1, he2⟩ := binaryExponent_spec hx
  have two : (1 : ℚ) < 2 := by norm_num
  have he : binaryExponent x = 26 := by
    have h1 : (2 : ℚ) ^ binaryExponent x < (2 : ℚ) ^ (27 : ℤ) := by
      have e : (2 : ℚ) ^ (27 : ℤ) = 134217728 := by norm_num
      rw [e]
      exact lt_of_le_of_lt he1 h27
    have h2 : (2 : ℚ) ^ (26 : ℤ) < (2 : ℚ) ^ (binaryExponent x + 1) := by
      have e : (2 : ℚ) ^ (26 : ℤ) = 67108864 := by norm_num
      rw [e]
      exact lt_of_le_of_lt h26 he2
    have := (zpow_lt_zpow_iff_right₀ two).mp h1
    have := (zpow_lt_zpow_iff_right₀ two).mp h2
    omega
  have hu : pow2 (max (binaryExponent x) (-1022) - 52) = 1 / 67108864 := by
    rw [he, pow2_eq_zpow]
    norm_num
  rw [roundDouble_pos hx]
  simp only [hu]
  have hhigh : x / (1 / 67108864) < (B : ℚ) + 1 / 2 := by
    rw [div_lt_iff₀ (by norm_num)]
    have := hB
    rw [lt_div_iff₀ (by norm_num)] at this
    linarith
  have hlow : ((0 : ℤ) : ℚ) ≤ x / (1 / 67108864) := by
    push_cast
    exact div_nonneg hx.le (by norm_num)
  have r1 := roundHalfEven_ge hlow
  have r2 := roundHalfEven_le hhigh
  have v1 : (0 : ℚ) ≤ roundHalfEven (x / (1 / 67108864)) * (1 / 67108864) :=
    mul_nonneg (by exact_mod_cast r1) (by norm_num)
  have v2 : (roundHalfEven (x / (1 / 67108864)) : ℚ) * (1 / 67108864) ≤ (B : ℚ) / 67108864 := by
    have : (roundHalfEven (x / (1 / 67108864)) : ℚ) ≤ B := by exact_mod_cast r2
    linarith
  have hbig : ¬ pow2 1024 ≤ roundHalfEven (x / (1 / 67108864)) * (1 / 67108864) := by
    rw [pow2_eq_zpow]
    have : (134217728 : ℚ) < (2 : ℚ) ^ (1024 : ℤ) := by
      have e : (134217728 : ℚ) = (2 : ℚ) ^ (27 : ℤ) := by norm_num
      rw [e]
      exact zpow_lt_zpow_right₀ two (by norm_num)
    intro h
    linarith
  rw [if_neg hbig]
  exact ⟨_, rfl, v1, v2⟩

theorem Draw.val_nonneg (r : Draw) : 0 ≤ r.val := by
  unfold Draw.val
  positivity

/-- A binary64 value below 1 is at most `1 - 2^-53`. -/
theorem Draw.val_le (r : Draw) : r.val ≤ 9007199254740991 / 9007199254740992 := by
  have h1 := r.mant_lt
  have h2 := r.lt_one
  have hnat : r.mant * 9007199254740992 ≤ 9007199254740991 * 2 ^ r.exp := by
    by_cases hk : r.exp ≤ 53
    · have hp : 2 ^ r.exp ≤ 2 ^ 53 := Nat.pow_le_pow_right (by decide) hk
      have e : (2 : ℕ) ^ 53 = 9007199254740992 := by norm_num
      rw [e] at hp
      nlinarith
    · have hp : 2 ^ 53 ≤ 2 ^ r.exp := Nat.pow_le_pow_right (by decide) (by omega)
      have e : (2 : ℕ) ^ 53 = 9007199254740992 := by norm_num
      rw [e] at hp h1
      nlinarith
  unfold Draw.val
  have hpos : (0 : ℚ) < ((2 ^ r.exp : ℕ) : ℚ) := by positivity
  rw [div_le_div_iff₀ hpos (by norm_num)]
  exact_mod_cast hnat

/-- The sum `10000000 + r * 90000000` of a draw is a finite number from
`10000000` to `100000000 - 2^-26`. -/
theorem candidateSum_bounds (r : Draw) :
    ∃ x : ℚ, candidateSum r = .fin x ∧ 10000000 ≤ x ∧ x ≤ 100000000 - 1 / 67108864 := by
  have h0 := r.val_nonneg
  have h1 := r.val_le
  -- the product
  have hprod : ∃ p : ℚ, roundDouble (r.val * 90000000) = .fin p ∧ 0 ≤ p ∧
      p ≤ 90000000 - 1 / 67108864 := by
    by_cases hz : r.val * 90000000 = 0
    · rw [hz]
      exact ⟨0, by simp [roundDouble], le_refl 0, by norm_num⟩
    · have hpos : 0 < r.val * 90000000 :=
        lt_of_le_of_ne (by positivity) (Ne.symm hz)
      have hlt : r.val * 90000000 < 134217728 := by nlinarith
      by_cases hc : r.val * 90000000 ≤ 90000000 - 1 / 67108864
      · obtain ⟨v, hv, v1, v2⟩ := roundDouble_between hpos hlt 0 6039797759999999
          (by simpa using hpos.le) (by
            have e : ((6039797759999999 : ℤ) : ℚ) / 67108864 = 90000000 - 1 / 67108864 := by
              norm_num
            rw [e]
            exact hc) (by norm_num)
        refine ⟨v, hv, by simpa using v1, ?_⟩
        have e : ((6039797759999999 : ℤ) : ℚ) / 67108864 = 90000000 - 1 / 67108864 := by
          norm_num
        rw [← e]
        exact v2
      · have hc' : 90000000 - 1 / 67108864 < r.val * 90000000 := not_le.mp hc
        obtain ⟨v, hv, v1, v2⟩ := roundDouble_below (x := r.val * 90000000)
          (by linarith [show (67108864 : ℚ) ≤ 90000000 - 1 / 67108864 by norm_num]) hlt
          6039797759999999 (by
            have e : (((6039797759999999 : ℤ) : ℚ) + 1 / 2) / 67108864 =
                90000000 - 1 / 134217728 := by norm_num
            rw [e]
            nlinarith) (by norm_num)
        refine ⟨v, hv, v1, ?_⟩
        have e : ((6039797759999999 : ℤ) : ℚ) / 67108864 = 90000000 - 1 / 67108864 := by
          norm_num
        rw [← e]
        exact v2
  obtain ⟨p, hp, p0, p1⟩ := hprod
  unfold candidateSum
  rw [hp]
  show ∃ x : ℚ, roundDouble (10000000 + p) = .fin x ∧ _
  obtain ⟨v, hv, v1, v2⟩ := roundDouble_between (x := 10000000 + p) (by linarith)
    (by linarith [show (90000000 : ℚ) - 1 / 67108864 < 100000000 by norm_num])
    671088640000000 6710886399999999
    (by
      have e : ((671088640000000 : ℤ) : ℚ) / 67108864 = 10000000 := by norm_num
      rw [e]
      linarith)
    (by
      have e : ((6710886399999999 : ℤ) : ℚ) / 67108864 = 100000000 - 1 / 67108864 := by
        norm_num
      rw [e]
      linarith)
    (by norm_num)
  refine ⟨v, hv, ?_, ?_⟩
  · have e : ((671088640000000 : ℤ) : ℚ) / 67108864 = 10000000 := by norm_num
    rw [← e]
    exact v1
  · have e : ((6710886399999999 : ℤ) : ℚ) / 67108864 = 100000000 - 1 / 67108864 := by
      norm_num
    rw [← e]
    exact v2

theorem candidate_bounds (r : Draw) : 10000000 ≤ candidate r ∧ candidate r < 100000000 := by
  obtain ⟨x, hx, x1, x2⟩ := candidateSum_bounds r
  unfold candidate
  rw [hx]
  simp only
  have hlo : (10000000 : ℤ) ≤ ⌊x⌋ := by
    apply Int.le_floor.mpr
    push_cast
    exact x1
  have hhi : ⌊x⌋ < (100000000 : ℤ) := by
    apply Int.floor_lt.mpr
    push_cast
    linarith [show (0 : ℚ) < 1 / 67108864 by norm_num]
  omega

/-- The loop of `generateAccountNumber` returns the first draw that is not in
use, and only draws in use come before it. -/
theorem generateAccountNumber_some {s : State} : ∀ {fuel : Nat} {random : Nat → Draw}
    {key : String}, generateAccountNumber s random fuel = some key →
    ∃ m, m < fuel ∧ key = toString (candidate (random m)) ∧ (s.get key).truthy = false ∧
      ∀ i, i < m → (s.get (toString (candidate (random i)))).truthy = true := by
  intro fuel
  induction fuel with
  | zero =>
    intro random key h
    simp [generateAccountNumber] at h
  | succ fuel ih =>
    intro random key h
    simp only [generateAccountNumber] at h
    by_cases ht : (s.get (toString (candidate (random 0)))).truthy = true
    · rw [if_pos ht] at h
      obtain ⟨m, hm, hk, hf, hb⟩ := ih h
      refine ⟨m + 1, by omega, hk, hf, ?_⟩
      intro i hi
      cases i with
      | zero => exact ht
      | succ i => exact hb i (by omega)
    · rw [if_neg ht] at h
      have hk : key = toString (candidate (random 0)) := (Option.some.inj h).symm
      refine ⟨0, by omega, hk, ?_, ?_⟩
      · rw [hk]
        simpa using ht
      · intro i hi
        omega

/-- With the first draw not in use at position `m`, every run of more than `m`
iterations returns its number. -/
theorem generateAccountNumber_first {s : State} : ∀ (m : Nat) (random : Nat → Draw),
    (s.get (toString (candidate (random m)))).truthy = false →
    (∀ i, i < m → (s.get (toString (candidate (random i)))).truthy = true) →
    ∀ fuel, m < fuel →
      generateAccountNumber s random fuel = some (toString (candidate (random m))) := by
  intro m
  induction m with
  | zero =>
    intro random hf _ fuel hfuel
    obtain ⟨f, rfl⟩ : ∃ f, fuel = f + 1 := ⟨fuel - 1, by omega⟩
    simp [generateAccountNumber, hf]
  | succ m ih =>
    intro random hf hb fuel hfuel
    obtain ⟨f, rfl⟩ : ∃ f, fuel = f + 1 := ⟨fuel - 1, by omega⟩
    have h0 := hb 0 (by omega)
    simp only [generateAccountNumber, h0, if_true]
    exact ih (fun i => random (i + 1)) hf (fun i hi => hb (i + 1) (by omega)) f (by omega)

/-- While every draw is in use the loop does not return, whatever the fuel. -/
theorem generateAccountNumber_none {s : State} : ∀ (fuel : Nat) (random : Nat → Draw),
    (∀ i, (s.get (toString (candidate (random i)))).truthy = true) →
    generateAccountNumber s random fuel = none := by
  intro fuel
  induction fuel with
  | zero => intro random _; rfl
  | succ fuel ih =>
    intro random h
    simp only [generateAccountNumber, h 0, if_true]
    exact ih _ (fun i => h (i + 1))


/-! ## The effect of a request on `accounts` -/

theorem postDeposit_effect (s : State) (key : String) (amount : JSVal) :
    (postDeposit s key amount).1.accounts = s.accounts ∨
    ∃ v, (postDeposit s key amount).1.accounts =
        modifyOwn (fun x => { x with balance := v }) s.accounts key ∧
      (postDeposit s key amount).2.status = 200 := by
  unfold postDeposit
  cases hg : s.get key <;> cases amount <;> simp [Ref.truthy, State.writeBalance, notFound]
  all_goals (try split)
  all_goals (try simp)
  all_goals (try split)
  all_goals (try simp)
  all_goals (try exact Or.inr ⟨_, rfl⟩)

theorem postWithdraw_effect (s : State) (key : String) (amount : JSVal) :
    (postWithdraw s key amount).1.accounts = s.accounts ∨
    ∃ v, (postWithdraw s key amount).1.accounts =
        modifyOwn (fun x => { x with balance := v }) s.accounts key ∧
      (postWithdraw s key amount).2.status = 200 := by
  unfold postWithdraw
  cases hg : s.get key <;> cases amount <;> simp [Ref.truthy, State.writeBalance, notFound]
  all_goals (try split)
  all_goals (try simp)
  all_goals (try split)
  all_goals (try simp)
  all_goals (try split)
  all_goals (try simp)
  all_goals (try exact Or.inr ⟨_, rfl⟩)

theorem resetRoute_effect (s : State) (key : String) :
    (resetRoute key s).1.accounts = s.accounts ∨
    ∃ v, (resetRoute key s).1.accounts =
        modifyOwn (fun x => { x with balance := v }) s.accounts key ∧
      (resetRoute key s).2.status = 200 := by
  unfold resetRoute
  cases hg : s.get key <;> simp [Ref.truthy, State.writeBalance, notFound]
  all_goals (try split)
  all_goals (try simp)
  all_goals (try exact Or.inr ⟨_, rfl⟩)

theorem deleteRoute_effect (s : State) (key : String) :
    (deleteRoute key s).1.accounts = s.accounts ∨
    (deleteRoute key s).1.accounts = deleteOwn s.accounts key := by
  unfold deleteRoute
  split
  · exact Or.inl rfl
  · exact Or.inr rfl

theorem verifyAdminToken_cases (env : Option String) (token : Option String) (s : State)
    (next : State → State × Response) :
    verifyAdminToken env token s next = (s, accessDenied) ∨
    verifyAdminToken env token s next = next s := by
  unfold verifyAdminToken
  cases token with
  | none => exact Or.inl rfl
  | some t =>
    simp only
    split
    · exact Or.inl rfl
    · exact Or.inr rfl

theorem postCreate_effect {s s' : State} {name : JSVal} {random : Nat → Draw} {fuel : Nat}
    {resp : Response} (h : postCreate s name random fuel = some (s', resp)) :
    s'.accounts = s.accounts ∨
    ∃ r : Draw, getOwn s.accounts (toString (candidate r)) = none ∧
      s'.accounts = s.accounts ++
        [(toString (candidate r), ⟨toString (candidate r), name, .fin 0⟩)] := by
  unfold postCreate at h
  split at h
  · simp only [Option.some.injEq, Prod.mk.injEq] at h
    exact Or.inl (by rw [← h.1])
  · split at h
    · exact absurd h (by simp)
    · rename_i key hgen
      obtain ⟨m, _, hk, hf, _⟩ := generateAccountNumber_some hgen
      have hnone : getOwn s.accounts (toString (candidate (random m))) = none := by
        rw [hk, truthy_get_toString] at hf
        cases hc : getOwn s.accounts (toString (candidate (random m))) with
        | none => rfl
        | some a => rw [hc] at hf; exact absurd hf (by simp)
      refine Or.inr ⟨random m, hnone, ?_⟩
      have hs : s'.accounts = putOwn s.accounts key ⟨key, name, .fin 0⟩ := by
        split at h <;>
        · simp only [Option.some.injEq, Prod.mk.injEq] at h
          rw [← h.1]
      rw [hs, hk]
      simp [putOwn, hnone]

/-- Every request leaves `accounts` as it is, changes the balance stored under
one key, deletes one key, or appends a fresh generated key with balance 0. -/
theorem handle_effect {env : Option String} {s s' : State} {random : Nat → Draw} {fuel : Nat}
    {req : Request} {resp : Response} (h : handle env s random fuel req = some (s', resp)) :
    s'.accounts = s.accounts ∨
    (∃ key v, s'.accounts = modifyOwn (fun x => { x with balance := v }) s.accounts key ∧
      resp.status = 200 ∧ req.target = some key) ∨
    (∃ key, s'.accounts = deleteOwn s.accounts key) ∨
    (∃ (r : Draw) (name : JSVal), getOwn s.accounts (toString (candidate r)) = none ∧
      s'.accounts = s.accounts ++
        [(toString (candidate r), ⟨toString (candidate r), name, .fin 0⟩)]) := by
  cases req with
  | create name =>
    rcases postCreate_effect (show postCreate s name random fuel = some (s', resp) from h) with
      e | ⟨r, h1, h2⟩
    · exact Or.inl e
    · exact Or.inr (Or.inr (Or.inr ⟨r, name, h1, h2⟩))
  | get key =>
    have e : getAccount s key = (s', resp) := Option.some.inj h
    have hs : (getAccount s key).1 = s := by
      simp only [getAccount]
      split <;> rfl
    rw [e] at hs
    have hs' : s' = s := hs
    exact Or.inl (by rw [hs'])
  | deposit key amount =>
    have e : postDeposit s key amount = (s', resp) := Option.some.inj h
    have := postDeposit_effect s key amount
    rw [e] at this
    rcases this with e1 | ⟨v, e1, e2⟩
    · exact Or.inl e1
    · exact Or.inr (Or.inl ⟨key, v, e1, e2, rfl⟩)
  | withdraw key amount =>
    have e : postWithdraw s key amount = (s', resp) := Option.some.inj h
    have := postWithdraw_effect s key amount
    rw [e] at this
    rcases this with e1 | ⟨v, e1, e2⟩
    · exact Or.inl e1
    · exact Or.inr (Or.inl ⟨key, v, e1, e2, rfl⟩)
  | adminList token =>
    have e : adminList env token s = (s', resp) := Option.some.inj h
    unfold adminList at e
    rcases verifyAdminToken_cases env token s
      (fun s => (s, ⟨200, .list (objectValues s.accounts)⟩)) with c | c
    · rw [c] at e
      have hs' : s = s' := congrArg Prod.fst e
      exact Or.inl (by rw [hs'])
    · rw [c] at e
      have hs' : s = s' := congrArg Prod.fst e
      exact Or.inl (by rw [hs'])
  | adminReset token key =>
    have e : adminReset env token s key = (s', resp) := Option.some.inj h
    unfold adminReset at e
    rcases verifyAdminToken_cases env token s (resetRoute key) with c | c
    · rw [c] at e
      have hs' : s = s' := congrArg Prod.fst e
      exact Or.inl (by rw [hs'])
    · rw [c] at e
      have := resetRoute_effect s key
      rw [e] at this
      rcases this with e1 | ⟨v, e1, e2⟩
      · exact Or.inl e1
      · exact Or.inr (Or.inl ⟨key, v, e1, e2, rfl⟩)
  | adminDelete token key =>
    have e : adminDelete env token s key = (s', resp) := Option.some.inj h
    unfold adminDelete at e
    rcases verifyAdminToken_cases env token s (deleteRoute key) with c | c
    · rw [c] at e
      have hs' : s = s' := congrArg Prod.fst e
      exact Or.inl (by rw [hs'])
    · rw [c] at e
      have := deleteRoute_effect s key
      rw [e] at this
      rcases this with e1 | e1
      · exact Or.inl e1
      · exact Or.inr (Or.inr (Or.inl ⟨key, e1⟩))

/-! ## Reachable states are well formed -/

theorem mem_modifyOwn {β : Type} {f : β → β} {l : List (String × β)} {key k : String} {v : β}
    (h : (k, v) ∈ modifyOwn f l key) : ∃ w, (k, w) ∈ l ∧ (v = w ∨ v = f w) := by
  induction l with
  | nil => simp [modifyOwn] at h
  | cons p rest ih =>
    obtain ⟨k0, w0⟩ := p
    by_cases hk : k0 = key
    · simp only [modifyOwn, hk, if_true, List.mem_cons, Prod.mk.injEq] at h
      rcases h with ⟨e1, e2⟩ | h
      · exact ⟨w0, by simp [hk, e1], Or.inr e2⟩
      · exact ⟨v, List.mem_cons_of_mem _ h, Or.inl rfl⟩
    · simp only [modifyOwn, hk, if_false, List.mem_cons, Prod.mk.injEq] at h
      rcases h with ⟨e1, e2⟩ | h
      · exact ⟨w0, by simp [e1], Or.inl e2⟩
      · obtain ⟨w, hw, hv⟩ := ih h
        exact ⟨w, List.mem_cons_of_mem _ hw, hv⟩

theorem not_mem_keys_of_getOwn_none {β : Type} {l : List (String × β)} {key : String}
    (h : getOwn l key = none) : key ∉ l.map Prod.fst := by
  intro hm
  obtain ⟨p, hp, hk⟩ := List.mem_map.mp hm
  obtain ⟨k, v⟩ := p
  have hk' : k = key := hk
  subst hk'
  have := getOwn_isSome_of_mem hp
  rw [h] at this
  exact Bool.noConfusion this

theorem wellFormed_init : State.init.WellFormed := by
  constructor
  · intro k a h
    simp [State.init] at h
  · simp [State.init]

theorem wellFormed_of_effect {s s' : State} (hw : s.WellFormed)
    (h : s'.accounts = s.accounts ∨
      (∃ key v, s'.accounts = modifyOwn (fun x => { x with balance := v }) s.accounts key) ∨
      (∃ key, s'.accounts = deleteOwn s.accounts key) ∨
      (∃ (r : Draw) (name : JSVal), getOwn s.accounts (toString (candidate r)) = none ∧
        s'.accounts = s.accounts ++
          [(toString (candidate r), ⟨toString (candidate r), name, .fin 0⟩)])) :
    s'.WellFormed := by
  obtain ⟨hkey, hnd⟩ := hw
  rcases h with e | ⟨key, v, e⟩ | ⟨key, e⟩ | ⟨r, name, hnone, e⟩
  · exact ⟨by rw [e]; exact hkey, by rw [e]; exact hnd⟩
  · constructor
    · intro k a hm
      rw [e] at hm
      obtain ⟨w, hw, hv⟩ := mem_modifyOwn hm
      rcases hv with rfl | rfl
      · exact hkey k a hw
      · exact hkey k w hw
    · rw [e, map_fst_modifyOwn]
      exact hnd
  · constructor
    · intro k a hm
      rw [e] at hm
      exact hkey k a (List.mem_of_mem_filter hm)
    · rw [e]
      exact hnd.sublist (List.Sublist.map _ (List.filter_sublist _))
  · constructor
    · intro k a hm
      rw [e] at hm
      rcases List.mem_append.mp hm with hm | hm
      · exact hkey k a hm
      · simp only [List.mem_singleton, Prod.mk.injEq] at hm
        obtain ⟨rfl, rfl⟩ := hm
        exact ⟨rfl, r, rfl⟩
    · rw [e, List.map_append]
      refine List.Nodup.append hnd (by simp) ?_
      intro k hk hk'
      simp only [List.map_cons, List.map_nil, List.mem_singleton] at hk'
      subst hk'
      exact not_mem_keys_of_getOwn_none hnone hk

theorem reachable_wellFormed {env : Option String} {s : State} (h : Reachable env s) :
    s.WellFormed := by
  induction h with
  | init => exact wellFormed_init
  | step req random fuel _ hstep ih =>
    refine wellFormed_of_effect ih ?_
    rcases handle_effect hstep with e | ⟨key, v, e, _, _⟩ | e | e
    · exact Or.inl e
    · exact Or.inr (Or.inl ⟨key, v, e⟩)
    · exact Or.inr (Or.inr (Or.inl e))
    · exact Or.inr (Or.inr (Or.inr e))

theorem isNumeral_of_live {s : State} (hw : s.WellFormed) {key : String} {a : Account}
    (h : s.live key a) : isNumeral key = true ∧ a.accountNumber = key := by
  obtain ⟨hk, r, hr⟩ := hw.1 key a (getOwn_mem h)
  exact ⟨by rw [hr]; exact isNumeral_toString _, hk⟩

theorem candidate_zero : candidate Draw.zero = 10000000 := by decide!

theorem candidate_half : candidate Draw.half = 55000000 := by decide!

/-- The two roundings matter: at the draw `0.10973929999999998` the candidate
is `19876537`, one more than the floor of the exact value of the expression. -/
theorem candidate_rounded_up :
    candidate ⟨494221870587899, 52, by decide, by decide, by decide⟩ = 19876537 ∧
    ⌊(10000000 : ℚ) + 494221870587899 / 4503599627370496 * 90000000⌋ = 19876536 := by
  constructor <;> decide!

theorem reachable_bank (env : Option String) : Reachable env (bank (.fin 0)) := by
  have h : handle env State.init (fun _ => Draw.zero) 1 (.create (.str "Alice")) =
      some (bank (.fin 0), ⟨201, .json (.account (alice (.fin 0)))⟩) := by
    show postCreate State.init (.str "Alice") (fun _ => Draw.zero) 1 = some _
    decide!
  exact Reachable.step _ _ _ Reachable.init h

theorem modifyOwn_idem {β : Type} (f : β → β) (hf : ∀ x, f (f x) = f x)
    (l : List (String × β)) (key : String) :
    modifyOwn f (modifyOwn f l key) key = modifyOwn f l key := by
  induction l with
  | nil => rfl
  | cons p rest ih =>
    obtain ⟨k, v⟩ := p
    by_cases h : k = key
    · simp [modifyOwn, h, hf]
    · simp [modifyOwn, h, ih]

theorem mem_fullAccounts (n : Nat) (hlo : 10000000 ≤ n) (hhi : n < 100000000) :
    (toString n, (⟨toString n, .str "x", .fin 0⟩ : Account)) ∈ fullAccounts := by
  unfold fullAccounts
  refine List.mem_map.mpr ⟨n - 10000000, List.mem_range.mpr (by omega), ?_⟩
  have e : 10000000 + (n - 10000000) = n := by omega
  simp only [e]

theorem truthy_get_fullRegistry (r : Draw) :
    (fullRegistry.get (toString (candidate r))).truthy = true := by
  rw [truthy_get_toString]
  obtain ⟨hlo, hhi⟩ := candidate_bounds r
  have h : (getOwn fullAccounts (toString (candidate r))).isSome = true :=
    getOwn_isSome_of_mem (mem_fullAccounts _ hlo hhi)
  simp only [fullRegistry]
  exact h

/-! ## `create` once a free number is drawn -/

theorem exists_first_free {s : State} {random : Nat → Draw} {n : Nat}
    (hfree : getOwn s.accounts (toString (candidate (random n))) = none) :
    ∃ m, m ≤ n ∧ getOwn s.accounts (toString (candidate (random m))) = none ∧
      ∀ i, i < m → (getOwn s.accounts (toString (candidate (random i)))).isSome = true := by
  have hex : ∃ i, getOwn s.accounts (toString (candidate (random i))) = none := ⟨n, hfree⟩
  refine ⟨Nat.find hex, Nat.find_le hfree, Nat.find_spec hex, ?_⟩
  intro i hi
  have := Nat.find_min hex hi
  cases hc : getOwn s.accounts (toString (candidate (random i))) with
  | none => exact absurd hc this
  | some a => rfl

theorem generateAccountNumber_of_first {s : State} {random : Nat → Draw} {m : Nat}
    (hfree : getOwn s.accounts (toString (candidate (random m))) = none)
    (hbefore : ∀ i, i < m → (getOwn s.accounts (toString (candidate (random i)))).isSome = true)
    {fuel : Nat} (hfuel : m < fuel) :
    generateAccountNumber s random fuel = some (toString (candidate (random m))) := by
  apply generateAccountNumber_first m random _ _ fuel hfuel
  · rw [truthy_get_toString, hfree]
    rfl
  · intro i hi
    rw [truthy_get_toString]
    exact hbefore i hi

theorem get_append_new (l : List (String × Account)) (p : Option JSNum)
    (mb : List (String × JSNum)) (n : Nat) (a : Account)
    (h : getOwn l (toString n) = none) :
    State.get ⟨l ++ [(toString n, a)], p, mb⟩ (toString n) = .account a := by
  rw [get_of_isNumeral _ (isNumeral_toString _)]
  simp [getOwn_append_single, h]

/-- With a truthy name and the first free draw at position `m`, `create` run
for more than `m` iterations appends the new account and answers 201 with it. -/
theorem postCreate_of_first {s : State} {name : JSVal} (hname : name.truthy = true)
    (hprint : name.printable = true) {random : Nat → Draw} {m : Nat}
    (hfree : getOwn s.accounts (toString (candidate (random m))) = none)
    (hbefore : ∀ i, i < m → (getOwn s.accounts (toString (candidate (random i)))).isSome = true)
    {fuel : Nat} (hfuel : m < fuel) :
    postCreate s name random fuel =
      some (⟨s.accounts ++ [(toString (candidate (random m)),
                ⟨toString (candidate (random m)), name, .fin 0⟩)],
              s.protoBalance, s.methodBalance⟩,
            ⟨201, .json (.account ⟨toString (candidate (random m)), name, .fin 0⟩)⟩) := by
  have hgen := generateAccountNumber_of_first hfree hbefore hfuel
  simp only [postCreate, hname, hprint, hgen, putOwn, hfree]
  simp [get_append_new s.accounts s.protoBalance s.methodBalance _ _ hfree]

/-- Whatever `create` answers to a truthy name that a template literal can
print is the 201 of a new account. -/
theorem postCreate_status {s s' : State} {name : JSVal} (hname : name.truthy = true)
    (hprint : name.printable = true) {random : Nat → Draw} {fuel : Nat} {resp : Response}
    (h : postCreate s name random fuel = some (s', resp)) : resp.status = 201 := by
  have hn : (!name.truthy) = false := by rw [hname]; rfl
  have hp : (!name.printable) = false := by rw [hprint]; rfl
  unfold postCreate at h
  rw [hn, hp] at h
  simp only [Bool.false_eq_true, if_false] at h
  split at h
  · exact absurd h (by simp)
  · simp only [Option.some.injEq, Prod.mk.injEq] at h
    rw [← h.2]

theorem getOwn_modifyOwn_live {l : List (String × Account)} {k : String} {a : Account}
    (v : JSNum) (h : getOwn l k = some a) :
    getOwn (modifyOwn (fun x => { x with balance := v }) l k) k =
      some ⟨a.accountNumber, a.name, v⟩ := by
  rw [getOwn_modifyOwn_same, h]
  rfl

theorem postDeposit_at {l : List (String × Account)} (p : Option JSNum)
    (mb : List (String × JSNum)) {k : String} {a : Account} {q : ℚ} {v : JSNum}
    (h : getOwn l k = some a) (hq : 0 < q) (hv : a.balance.add (.fin q) = v) :
    postDeposit ⟨l, p, mb⟩ k (.num (.fin q)) =
      (⟨modifyOwn (fun x => { x with balance := v }) l k, p, mb⟩,
       ⟨200, .json (.account ⟨a.accountNumber, a.name, v⟩)⟩) := by
  subst hv
  have hl : State.live ⟨l, p, mb⟩ k a := h
  exact postDeposit_live hl hq

theorem postWithdraw_at {l : List (String × Account)} (p : Option JSNum)
    (mb : List (String × JSNum)) {k : String} {a : Account} {q : ℚ} {v : JSNum}
    (h : getOwn l k = some a) (hq : 0 < q) (hlt : a.balance.lt (.fin q) = false)
    (hv : a.balance.sub (.fin q) = v) :
    postWithdraw ⟨l, p, mb⟩ k (.num (.fin q)) =
      (⟨modifyOwn (fun x => { x with balance := v }) l k, p, mb⟩,
       ⟨200, .json (.account ⟨a.accountNumber, a.name, v⟩)⟩) := by
  subst hv
  have hl : State.live ⟨l, p, mb⟩ k a := h
  exact postWithdraw_live_ok hl hq hlt

theorem postWithdraw_short_at {l : List (String × Account)} (p : Option JSNum)
    (mb : List (String × JSNum)) {k : String} {a : Account} {q : ℚ}
    (h : getOwn l k = some a) (hq : 0 < q) (hlt : a.balance.lt (.fin q) = true) :
    postWithdraw ⟨l, p, mb⟩ k (.num (.fin q)) =
      (⟨l, p, mb⟩, ⟨400, .error "Insufficient funds"⟩) := by
  have hl : State.live ⟨l, p, mb⟩ k a := h
  exact postWithdraw_live_short hl hq hlt

theorem adminReset_at (env : Option String) {l : List (String × Account)} (p : Option JSNum)
    (mb : List (String × JSNum)) {k : String} {a : Account} (h : getOwn l k = some a) :
    adminReset env (some (ADMIN_TOKEN env)) ⟨l, p, mb⟩ k =
      (⟨modifyOwn (fun x => { x with balance := .fin 0 }) l k, p, mb⟩,
       ⟨200, .json (.account ⟨a.accountNumber, a.name, .fin 0⟩)⟩) := by
  unfold adminReset
  rw [verifyAdminToken_pass]
  have hl : State.live ⟨l, p, mb⟩ k a := h
  exact resetRoute_live hl

theorem adminDelete_at (env : Option String) {l : List (String × Account)} (p : Option JSNum)
    (mb : List (String × JSNum)) {k : String} {a : Account} (h : getOwn l k = some a) :
    adminDelete env (some (ADMIN_TOKEN env)) ⟨l, p, mb⟩ k =
      (⟨deleteOwn l k, p, mb⟩, ⟨204, .empty⟩) := by
  unfold adminDelete
  rw [verifyAdminToken_pass]
  have hl : State.live ⟨l, p, mb⟩ k a := h
  simp [deleteRoute, get_of_live hl, Ref.truthy]

theorem getAccount_after_delete (l : List (String × Account)) (p : Option JSNum)
    (mb : List (String × JSNum)) {k : String} (hnum : isNumeral k = true) :
    getAccount ⟨deleteOwn l k, p, mb⟩ k =
      (⟨deleteOwn l k, p, mb⟩, ⟨404, .error "Account not found"⟩) := by
  have hget : State.get ⟨deleteOwn l k, p, mb⟩ k = .undefined := by
    rw [get_of_isNumeral _ hnum]
    simp [getOwn_deleteOwn_same]
  simp [getAccount, hget, Ref.truthy, notFound]

theorem roundDouble_100 : roundDouble (0 + 100) = .fin 100 := by decide!
theorem roundDouble_60 : roundDouble (100 + -40) = .fin 60 := by decide!

/-! ## The answers a handler can give -/

/-- Every response is one of those the routes send: an error body goes with
400, 403 or 404, the empty body with 204, and 200 or 201 with a JSON value;
or it is the 500 of a `create` whose name cannot be converted to a string. -/
theorem handle_response {env : Option String} {s s' : State} {random : Nat → Draw} {fuel : Nat}
    {req : Request} {resp : Response} (h : handle env s random fuel req = some (s', resp)) :
    (∃ msg, resp = ⟨400, .error msg⟩) ∨ resp = notFound ∨ resp = accessDenied ∨
    resp = ⟨204, .empty⟩ ∨ (∃ r, resp = ⟨200, .json r⟩) ∨ (∃ l, resp = ⟨200, .list l⟩) ∨
    (∃ r, resp = ⟨201, .json r⟩) ∨
    (resp = internalError ∧ ∃ name, req = .create name ∧ name.printable = false) := by
  cases req with
  | create name =>
    have e : postCreate s name random fuel = some (s', resp) := h
    unfold postCreate at e
    split at e
    · simp only [Option.some.injEq, Prod.mk.injEq] at e
      exact Or.inl ⟨_, e.2.symm⟩
    · split at e
      · exact absurd e (by simp)
      · split at e
        · rename_i hp
          simp only [Option.some.injEq, Prod.mk.injEq] at e
          refine Or.inr (Or.inr (Or.inr (Or.inr (Or.inr (Or.inr (Or.inr
            ⟨e.2.symm, name, rfl, ?_⟩))))))
          simpa using hp
        · simp only [Option.some.injEq, Prod.mk.injEq] at e
          exact Or.inr (Or.inr (Or.inr (Or.inr (Or.inr (Or.inr (Or.inl ⟨_, e.2.symm⟩))))))
  | get key =>
    have e : getAccount s key = (s', resp) := Option.some.inj h
    have e2 : resp = (getAccount s key).2 := by rw [e]
    rw [e2]
    simp only [getAccount]
    split
    · exact Or.inr (Or.inl rfl)
    · exact Or.inr (Or.inr (Or.inr (Or.inr (Or.inl ⟨_, rfl⟩))))
  | deposit key amount =>
    have e : postDeposit s key amount = (s', resp) := Option.some.inj h
    have e2 : resp = (postDeposit s key amount).2 := by rw [e]
    rw [e2]
    unfold postDeposit
    simp only
    split
    · exact Or.inr (Or.inl rfl)
    · split
      · split
        · exact Or.inl ⟨_, rfl⟩
        · exact Or.inr (Or.inr (Or.inr (Or.inr (Or.inl ⟨_, rfl⟩))))
      · exact Or.inl ⟨_, rfl⟩
  | withdraw key amount =>
    have e : postWithdraw s key amount = (s', resp) := Option.some.inj h
    have e2 : resp = (postWithdraw s key amount).2 := by rw [e]
    rw [e2]
    unfold postWithdraw
    simp only
    split
    · exact Or.inr (Or.inl rfl)
    · split
      · split
        · exact Or.inl ⟨_, rfl⟩
        · split
          · exact Or.inl ⟨_, rfl⟩
          · exact Or.inr (Or.inr (Or.inr (Or.inr (Or.inl ⟨_, rfl⟩))))
      · exact Or.inl ⟨_, rfl⟩
  | adminList token =>
    have e : adminList env token s = (s', resp) := Option.some.inj h
    have e2 : resp = (adminList env token s).2 := by rw [e]
    rw [e2]
    unfold adminList
    rcases verifyAdminToken_cases env token s
      (fun s => (s, ⟨200, .list (objectValues s.accounts)⟩)) with c | c
    · rw [c]
      exact Or.inr (Or.inr (Or.inl rfl))
    · rw [c]
      exact Or.inr (Or.inr (Or.inr (Or.inr (Or.inr (Or.inl ⟨_, rfl⟩)))))
  | adminReset token key =>
    have e : adminReset env token s key = (s', resp) := Option.some.inj h
    have e2 : resp = (adminReset env token s key).2 := by rw [e]
    rw [e2]
    unfold adminReset
    rcases verifyAdminToken_cases env token s (resetRoute key) with c | c
    · rw [c]
      exact Or.inr (Or.inr (Or.inl rfl))
    · rw [c]
      unfold resetRoute
      simp only
      split
      · exact Or.inr (Or.inl rfl)
      · exact Or.inr (Or.inr (Or.inr (Or.inr (Or.inl ⟨_, rfl⟩))))
  | adminDelete token key =>
    have e : adminDelete env token s key = (s', resp) := Option.some.inj h
    have e2 : resp = (adminDelete env token s key).2 := by rw [e]
    rw [e2]
    unfold adminDelete
    rcases verifyAdminToken_cases env token s (deleteRoute key) with c | c
    · rw [c]
      exact Or.inr (Or.inr (Or.inl rfl))
    · rw [c]
      unfold deleteRoute
      split
      · exact Or.inr (Or.inl rfl)
      · exact Or.inr (Or.inr (Or.inr (Or.inl rfl)))

/-- The order of the checks, for a key under which `accounts[key]` finds
nothing, for an amount the guard rejects, and for a token that is not the secret. -/
theorem order_of_checks (env : Option String) (s : State) (key : String) (amount : JSVal)
    (token : Option String) :
    ((s.get key).truthy = false →
      postDeposit s key amount = (s, notFound) ∧ postWithdraw s key amount = (s, notFound)) ∧
    ((s.get key).truthy = true → (∀ a, amount = .num a → a.le (.fin 0) = true) →
      postDeposit s key amount = (s, ⟨400, .error "Invalid deposit amount"⟩) ∧
      postWithdraw s key amount = (s, ⟨400, .error "Invalid withdrawal amount"⟩)) ∧
    (token ≠ some (ADMIN_TOKEN env) →
      adminReset env token s key = (s, accessDenied) ∧
      adminDelete env token s key = (s, accessDenied)) := by
  refine ⟨?_, ?_, ?_⟩
  · intro h
    simp [postDeposit, postWithdraw, h]
  · intro h hbad
    cases amount with
    | num a => simp [postDeposit, postWithdraw, h, hbad a rfl]
    | _ => simp [postDeposit, postWithdraw, h]
  · intro h
    exact ⟨verifyAdminToken_stop env token s _ h, verifyAdminToken_stop env token s _ h⟩

/-! ## Decimal numerals -/

theorem digitChar_toNat : ∀ d, d < 10 → (Nat.digitChar d).toNat - 48 = d := by decide

theorem foldl_toDigitsCore (fuel : Nat) : ∀ (n : Nat) (ds : List Char), n < fuel →
    (Nat.toDigitsCore 10 fuel n ds).foldl (fun n c => n * 10 + (c.toNat - 48)) 0 =
      ds.foldl (fun n c => n * 10 + (c.toNat - 48)) n := by
  induction fuel with
  | zero => intro n ds h; omega
  | succ fuel ih =>
    intro n ds h
    have hd : (Nat.digitChar (n % 10)).toNat - 48 = n % 10 :=
      digitChar_toNat _ (Nat.mod_lt _ (by decide))
    simp only [Nat.toDigitsCore]
    split
    · rename_i h0
      have hn : n % 10 = n := by omega
      rw [hn] at hd
      simp only [List.foldl_cons, hn, hd, Nat.zero_mul, Nat.zero_add]
    · rename_i h0
      rw [ih (n / 10) _ (by omega)]
      have hn : n / 10 * 10 + n % 10 = n := by omega
      simp only [List.foldl_cons, hd, hn]

theorem parseDigits_toString (n : Nat) : parseDigits (toString n).data = n := by
  have h : (toString n).data = Nat.toDigitsCore 10 (n + 1) n [] := rfl
  rw [h]
  unfold parseDigits
  rw [foldl_toDigitsCore (n + 1) n [] (by omega)]
  rfl

theorem arrayIndex_toString {n : Nat} (h : n < 4294967295) :
    arrayIndex (toString n) = some n := by
  simp [arrayIndex, parseDigits_toString, h]

theorem toString_of_arrayIndex {key : String} {n : Nat} (h : arrayIndex key = some n) :
    toString n = key := by
  unfold arrayIndex at h
  simp only at h
  split at h
  · rename_i hc
    rw [← Option.some.inj h]
    exact hc.1
  · exact absurd h (by simp)

theorem toString_injective {m n : Nat} (h : toString m = toString n) : m = n := by
  rw [← parseDigits_toString m, ← parseDigits_toString n, h]

theorem isDigit_toNat_le {c : Char} (h : c.isDigit = true) : c.toNat - 48 ≤ 9 := by
  simp only [Char.isDigit, Bool.and_eq_true, decide_eq_true_eq] at h
  have h2 : c.val.toNat ≤ 57 := h.2
  show c.val.toNat - 48 ≤ 9
  omega

theorem foldl_digits_lt : ∀ (cs : List Char) (acc : Nat), (∀ c ∈ cs, c.isDigit = true) →
    cs.foldl (fun n c => n * 10 + (c.toNat - 48)) acc < (acc + 1) * 10 ^ cs.length := by
  intro cs
  induction cs with
  | nil => intro acc _; simp
  | cons c cs ih =>
    intro acc h
    have hc := isDigit_toNat_le (h c (List.mem_cons_self _ _))
    have := ih (acc * 10 + (c.toNat - 48)) (fun d hd => h d (List.mem_cons_of_mem _ hd))
    simp only [List.foldl_cons, List.length_cons]
    calc _ < (acc * 10 + (c.toNat - 48) + 1) * 10 ^ cs.length := this
      _ ≤ ((acc + 1) * 10) * 10 ^ cs.length := Nat.mul_le_mul_right _ (by omega)
      _ = (acc + 1) * 10 ^ (cs.length + 1) := by ring

theorem isDigit_of_mem_toString {n : Nat} {c : Char} (h : c ∈ (toString n).data) :
    c.isDigit = true := by
  have := isNumeral_toString n
  simp only [isNumeral, List.all_eq_true] at this
  exact this c h

/-- The decimal string of a number from `10000000` to `99999999` has eight
characters, all digits, and the first is not `0`. -/
theorem toString_eight_digits {n : Nat} (hlo : 10000000 ≤ n) (hhi : n < 100000000) :
    (toString n).length = 8 ∧ (toString n).data.head? ≠ some '0' := by
  have hle : (toString n).length ≤ 8 := Nat.repr_length n 8 (by decide) (by omega)
  have hlen : (toString n).data.length = (toString n).length := rfl
  have hparse := parseDigits_toString n
  have hlt := foldl_digits_lt (toString n).data 0 (fun c hc => isDigit_of_mem_toString hc)
  have hge : 8 ≤ (toString n).length := by
    by_contra hcon
    have h7 : (toString n).data.length ≤ 7 := by omega
    have : 10 ^ (toString n).data.length ≤ 10 ^ 7 := Nat.pow_le_pow_right (by decide) h7
    unfold parseDigits at hparse
    rw [hparse] at hlt
    omega
  refine ⟨by omega, ?_⟩
  intro h0
  cases hd : (toString n).data with
  | nil => rw [hd] at h0; simp at h0
  | cons c cs =>
    rw [hd] at h0
    simp only [List.head?_cons, Option.some.injEq] at h0
    have hcs : cs.length = 7 := by
      have : (toString n).data.length = 8 := by omega
      rw [hd] at this
      simpa using this
    have hlt2 := foldl_digits_lt cs 0
      (fun d hdm => isDigit_of_mem_toString (n := n) (by rw [hd]; exact List.mem_cons_of_mem _ hdm))
    unfold parseDigits at hparse
    rw [hd, h0] at hparse
    simp only [List.foldl_cons] at hparse
    have hz : (0 * 10 + (('0' : Char).toNat - 48)) = 0 := by decide
    rw [hz] at hparse
    rw [hparse, hcs] at hlt2
    omega

/-! ## The enumeration `Object.values(accounts)` -/

theorem indexed_map_snd (l : List (String × Account)) :
    (l.filterMap (fun p => (arrayIndex p.1).map (fun n => (n, p.2)))).map Prod.snd =
      (l.filter (fun p => (arrayIndex p.1).isSome)).map Prod.snd := by
  induction l with
  | nil => rfl
  | cons p rest ih =>
    cases h : arrayIndex p.1 with
    | none => simp [List.filterMap_cons, List.filter_cons, h, ih]
    | some n => simp [List.filterMap_cons, List.filter_cons, h, ih]

/-- The enumeration holds the values of the own properties, each once. -/
theorem objectValues_perm (l : List (String × Account)) :
    (objectValues l).Perm (l.map Prod.snd) := by
  unfold objectValues
  simp only
  have h1 := (List.perm_insertionSort (fun x y : Nat × Account => x.1 ≤ y.1)
    (l.filterMap (fun p => (arrayIndex p.1).map (fun n => (n, p.2))))).map Prod.snd
  rw [indexed_map_snd] at h1
  have h2 : l.filter (fun p => (arrayIndex p.1).isNone) =
      l.filter (fun p => !(arrayIndex p.1).isSome) := by
    apply List.filter_congr
    intro p _
    cases arrayIndex p.1 <;> rfl
  rw [h2]
  have h3 := List.filter_append_perm (fun p : String × Account => (arrayIndex p.1).isSome) l
  exact (List.Perm.append h1 (List.Perm.refl _)).trans
    (by rw [← List.map_append]; exact h3.map _)

theorem getOwn_of_mem_nodup {β : Type} {l : List (String × β)} (hnd : (l.map Prod.fst).Nodup)
    {key : String} {v : β} (h : (key, v) ∈ l) : getOwn l key = some v := by
  induction l with
  | nil => simp at h
  | cons p rest ih =>
    obtain ⟨k, w⟩ := p
    simp only [List.map_cons, List.nodup_cons] at hnd
    rcases List.mem_cons.mp h with e | e
    · simp only [Prod.mk.injEq] at e
      obtain ⟨rfl, rfl⟩ := e
      simp [getOwn]
    · have hk : k ≠ key := by
        intro hk
        subst hk
        exact hnd.1 (List.mem_map.mpr ⟨(k, v), e, rfl⟩)
      simp only [getOwn, hk, if_false]
      exact ih hnd.2 e

/-- In a well-formed state every key is an array index, so the enumeration is
the list of accounts sorted by number, and the numbers strictly increase. -/
theorem objectValues_sorted {s : State} (hw : s.WellFormed) :
    (objectValues s.accounts).Pairwise
      (fun a b => parseDigits a.accountNumber.data < parseDigits b.accountNumber.data) := by
  obtain ⟨hkey, hnd⟩ := hw
  -- every key is the decimal form of its array index
  have hidx : ∀ p ∈ s.accounts, ∃ n, arrayIndex p.1 = some n ∧ toString n = p.1 := by
    intro p hp
    obtain ⟨_, r, hr⟩ := hkey p.1 p.2 hp
    have hb := candidate_bounds r
    exact ⟨candidate r, by rw [hr]; exact arrayIndex_toString (by omega), hr.symm⟩
  have hnamed : s.accounts.filter (fun p => (arrayIndex p.1).isNone) = [] := by
    apply List.filter_eq_nil_iff.mpr
    intro p hp
    obtain ⟨n, hn, _⟩ := hidx p hp
    simp [hn]
  -- the entries of the sorted list carry the number their account holds
  have hmem : ∀ x ∈ s.accounts.filterMap (fun p => (arrayIndex p.1).map (fun n => (n, p.2))),
      x.2.accountNumber = toString x.1 := by
    intro x hx
    obtain ⟨p, hp, hfx⟩ := List.mem_filterMap.mp hx
    cases hn : arrayIndex p.1 with
    | none => rw [hn] at hfx; simp at hfx
    | some n =>
      rw [hn] at hfx
      simp only [Option.map_some', Option.some.injEq] at hfx
      subst hfx
      show p.2.accountNumber = toString n
      rw [(hkey p.1 p.2 hp).1, toString_of_arrayIndex hn]
  have hkeys : (s.accounts.filterMap
      (fun p => (arrayIndex p.1).map (fun n => (n, p.2)))).map (fun x => toString x.1) =
      s.accounts.map Prod.fst := by
    have : ∀ l : List (String × Account),
        (∀ p ∈ l, ∃ n, arrayIndex p.1 = some n ∧ toString n = p.1) →
        (l.filterMap (fun p => (arrayIndex p.1).map (fun n => (n, p.2)))).map
          (fun x => toString x.1) = l.map Prod.fst := by
      intro l
      induction l with
      | nil => intro _; rfl
      | cons p rest ih =>
        intro h
        obtain ⟨n, hn, hs⟩ := h p (List.mem_cons_self _ _)
        simp only [List.filterMap_cons, hn, Option.map_some', List.map_cons, hs]
        rw [ih (fun q hq => h q (List.mem_cons_of_mem _ hq))]
    exact this _ hidx
  have hnd1 : ((s.accounts.filterMap
      (fun p => (arrayIndex p.1).map (fun n => (n, p.2)))).map Prod.fst).Nodup := by
    apply List.Nodup.of_map (fun n : Nat => toString n)
    rw [List.map_map]
    exact hkeys ▸ hnd
  haveI : IsTotal (Nat × Account) (fun x y => x.1 ≤ y.1) := ⟨fun a b => le_total a.1 b.1⟩
  haveI : IsTrans (Nat × Account) (fun x y => x.1 ≤ y.1) :=
    ⟨fun a b c h1 h2 => le_trans h1 h2⟩
  have hsorted := List.sorted_insertionSort (fun x y : Nat × Account => x.1 ≤ y.1)
    (s.accounts.filterMap (fun p => (arrayIndex p.1).map (fun n => (n, p.2))))
  have hperm := List.perm_insertionSort (fun x y : Nat × Account => x.1 ≤ y.1)
    (s.accounts.filterMap (fun p => (arrayIndex p.1).map (fun n => (n, p.2))))
  have hnd2 : ((List.insertionSort (fun x y : Nat × Account => x.1 ≤ y.1)
      (s.accounts.filterMap (fun p => (arrayIndex p.1).map (fun n => (n, p.2))))).map
        Prod.fst).Nodup := (hperm.map Prod.fst).nodup_iff.mpr hnd1
  have hne : (List.insertionSort (fun x y : Nat × Account => x.1 ≤ y.1)
      (s.accounts.filterMap (fun p => (arrayIndex p.1).map (fun n => (n, p.2))))).Pairwise
        (fun x y => x.1 ≠ y.1) := (List.pairwise_map.mp hnd2)
  unfold objectValues
  simp only [hnamed, List.map_nil, List.append_nil]
  rw [List.pairwise_map]
  refine (hsorted.and hne).imp_of_mem ?_
  intro x y hx hy hxy
  rw [hmem x (hperm.subset hx), hmem y (hperm.subset hy), parseDigits_toString,
    parseDigits_toString]
  exact lt_of_le_of_ne hxy.1 hxy.2

theorem generateAccountNumber_none_of_lt {s : State} : ∀ (fuel : Nat) (random : Nat → Draw),
    (∀ i, i < fuel → (s.get (toString (candidate (random i)))).truthy = true) →
    generateAccountNumber s random fuel = none := by
  intro fuel
  induction fuel with
  | zero => intro random _; rfl
  | succ fuel ih =>
    intro random h
    simp only [generateAccountNumber, h 0 (by omega), if_true]
    exact ih _ (fun i hi => h (i + 1) (by omega))

theorem reachable_twoAccounts (env : Option String) : Reachable env twoAccounts := by
  have h1 : handle env State.init (fun _ => Draw.half) 1 (.create (.str "Bob")) =
      some (⟨[("55000000", ⟨"55000000", .str "Bob", .fin 0⟩)], none, []⟩,
        ⟨201, .json (.account ⟨"55000000", .str "Bob", .fin 0⟩)⟩) := by
    show postCreate State.init (.str "Bob") (fun _ => Draw.half) 1 = some _
    decide!
  have h2 : handle env ⟨[("55000000", ⟨"55000000", .str "Bob", .fin 0⟩)], none, []⟩
      (fun _ => Draw.zero) 1 (.create (.str "Alice")) =
      some (twoAccounts, ⟨201, .json (.account (alice (.fin 0)))⟩) := by
    show postCreate _ (.str "Alice") (fun _ => Draw.zero) 1 = some _
    decide!
  exact Reachable.step _ _ _ (Reachable.step _ _ _ Reachable.init h1) h2

/-! ## The balances of reachable states -/

theorem pow2_pos (k : ℤ) : 0 < pow2 k := by
  unfold pow2
  split
  · positivity
  · positivity

theorem roundHalfEven_nonneg {m : ℚ} (h : 0 ≤ m) : 0 ≤ roundHalfEven m := by
  have hf : 0 ≤ ⌊m⌋ := Int.floor_nonneg.mpr h
  unfold roundHalfEven
  split
  · exact hf
  · split
    · omega
    · split
      · exact hf
      · omega

theorem nonNegative_roundDouble {q : ℚ} (h : 0 ≤ q) : nonNegative (roundDouble q) = true := by
  unfold roundDouble
  split
  · simp [nonNegative, JSNum.le]
  · simp only
    have hu := pow2_pos (max (binaryExponent |q|) (-1022) - 52)
    have hr : (0 : ℚ) ≤ roundHalfEven (q / pow2 (max (binaryExponent |q|) (-1022) - 52)) *
        pow2 (max (binaryExponent |q|) (-1022) - 52) := by
      apply mul_nonneg _ hu.le
      exact_mod_cast roundHalfEven_nonneg (div_nonneg h hu.le)
    split
    · rfl
    · split
      · rename_i hneg
        have := pow2_pos 1024
        linarith
      · simp [nonNegative, JSNum.le, hr]

/-- A balance the handlers can produce from 0: `NaN`, or a number that is not negative. -/
theorem balance_add {b amt : JSNum} (hb : b = .nan ∨ nonNegative b = true)
    (ha : amt.le (.fin 0) = false) :
    b.add amt = .nan ∨ nonNegative (b.add amt) = true := by
  rcases hb with rfl | hb
  · exact Or.inl (by cases amt <;> rfl)
  · cases b with
    | nan => exact Or.inl (by cases amt <;> rfl)
    | ninf => simp [nonNegative, JSNum.le] at hb
    | pinf =>
      cases amt with
      | nan => exact Or.inl rfl
      | ninf => simp [JSNum.le] at ha
      | fin a => exact Or.inr rfl
      | pinf => exact Or.inr rfl
    | fin x =>
      have hx : 0 ≤ x := by simpa [nonNegative, JSNum.le] using hb
      cases amt with
      | nan => exact Or.inl rfl
      | ninf => simp [JSNum.le] at ha
      | pinf => exact Or.inr rfl
      | fin a =>
        have ha' : 0 < a := by simpa [JSNum.le] using ha
        exact Or.inr (nonNegative_roundDouble (by linarith))

theorem balance_sub {b amt : JSNum} (hb : b = .nan ∨ nonNegative b = true)
    (ha : amt.le (.fin 0) = false) (hlt : b.lt amt = false) :
    b.sub amt = .nan ∨ nonNegative (b.sub amt) = true := by
  rcases hb with rfl | hb
  · exact Or.inl (by cases amt <;> rfl)
  · cases b with
    | nan => exact Or.inl (by cases amt <;> rfl)
    | ninf => simp [nonNegative, JSNum.le] at hb
    | pinf =>
      cases amt with
      | nan => exact Or.inl rfl
      | ninf => simp [JSNum.le] at ha
      | fin a => exact Or.inr rfl
      | pinf => exact Or.inl rfl
    | fin x =>
      cases amt with
      | nan => exact Or.inl rfl
      | ninf => simp [JSNum.le] at ha
      | pinf => simp [JSNum.lt] at hlt
      | fin a =>
        have hxa : a ≤ x := by simpa [JSNum.lt] using hlt
        exact Or.inr (nonNegative_roundDouble (by linarith))

theorem getOwn_of_get {s : State} {key : String} {a : Account} (h : s.get key = .account a) :
    getOwn s.accounts key = some a := by
  unfold State.get at h
  cases hc : getOwn s.accounts key with
  | some a' =>
    rw [hc] at h
    simp only [Ref.account.injEq] at h
    rw [h]
  | none =>
    rw [hc] at h
    simp only at h
    split at h
    · exact absurd h (by simp)
    · split at h
      · exact absurd h (by simp)
      · split at h
        · split at h <;> exact absurd h (by simp)
        · exact absurd h (by simp)

theorem writeBalance_accounts (s : State) (key : String) {r : Ref} (v : JSNum)
    (h : ∀ a, r ≠ .account a) : (s.writeBalance key r v).accounts = s.accounts := by
  cases r with
  | account a => exact absurd rfl (h a)
  | _ => rfl

theorem postDeposit_accounts_other {s : State} {key : String} (amount : JSVal)
    (h : ∀ a, s.get key ≠ .account a) : (postDeposit s key amount).1.accounts = s.accounts := by
  unfold postDeposit
  simp only
  split
  · rfl
  · split
    · split
      · rfl
      · exact writeBalance_accounts s key _ h
    · rfl

theorem postWithdraw_accounts_other {s : State} {key : String} (amount : JSVal)
    (h : ∀ a, s.get key ≠ .account a) : (postWithdraw s key amount).1.accounts = s.accounts := by
  unfold postWithdraw
  simp only
  split
  · rfl
  · split
    · split
      · rfl
      · split
        · rfl
        · exact writeBalance_accounts s key _ h
    · rfl

theorem resetRoute_accounts_other {s : State} {key : String}
    (h : ∀ a, s.get key ≠ .account a) : (resetRoute key s).1.accounts = s.accounts := by
  unfold resetRoute
  simp only
  split
  · rfl
  · exact writeBalance_accounts s key _ h

theorem get_account_or (s : State) (key : String) :
    (∃ a, s.get key = .account a) ∨ ∀ a, s.get key ≠ .account a := by
  cases hg : s.get key with
  | account a => exact Or.inl ⟨a, rfl⟩
  | _ => exact Or.inr (fun a h => by simp at h)

/-- What a request does to the balances: the registry is left as it is, loses
a key, gains a new account of balance 0, or one balance `b` becomes 0, `b + a`
for an amount `a` the guard lets through, or `b - a` for such an `a` with
`b < a` false. -/
theorem handle_balance {env : Option String} {s s' : State} {random : Nat → Draw} {fuel : Nat}
    {req : Request} {resp : Response} (h : handle env s random fuel req = some (s', resp)) :
    s'.accounts = s.accounts ∨
    (∃ key, s'.accounts = deleteOwn s.accounts key) ∨
    (∃ (key : String) (name : JSVal),
      s'.accounts = s.accounts ++ [(key, ⟨key, name, .fin 0⟩)]) ∨
    (∃ (key : String) (a : Account) (v : JSNum), getOwn s.accounts key = some a ∧
      s'.accounts = modifyOwn (fun x => { x with balance := v }) s.accounts key ∧
      (v = .fin 0 ∨
        (∃ amt : JSNum, amt.le (.fin 0) = false ∧ v = a.balance.add amt) ∨
        (∃ amt : JSNum, amt.le (.fin 0) = false ∧ a.balance.lt amt = false ∧
          v = a.balance.sub amt))) := by
  have other : req.target = none →
      (s'.accounts = s.accounts ∨
      (∃ key, s'.accounts = deleteOwn s.accounts key) ∨
      (∃ (key : String) (name : JSVal),
        s'.accounts = s.accounts ++ [(key, ⟨key, name, .fin 0⟩)]) ∨
      (∃ (key : String) (a : Account) (v : JSNum), getOwn s.accounts key = some a ∧
        s'.accounts = modifyOwn (fun x => { x with balance := v }) s.accounts key ∧
        (v = .fin 0 ∨
          (∃ amt : JSNum, amt.le (.fin 0) = false ∧ v = a.balance.add amt) ∨
          (∃ amt : JSNum, amt.le (.fin 0) = false ∧ a.balance.lt amt = false ∧
            v = a.balance.sub amt)))) := by
    intro hnone
    rcases handle_effect h with e | ⟨_, _, _, _, ht⟩ | e | ⟨r, name, _, e⟩
    · exact Or.inl e
    · rw [hnone] at ht
      exact absurd ht (by simp)
    · exact Or.inr (Or.inl e)
    · exact Or.inr (Or.inr (Or.inl ⟨_, _, e⟩))
  cases req with
  | create name => exact other rfl
  | get key => exact other rfl
  | adminList token => exact other rfl
  | adminDelete token key => exact other rfl
  | deposit key amount =>
    have e : postDeposit s key amount = (s', resp) := Option.some.inj h
    have e1 : s'.accounts = (postDeposit s key amount).1.accounts := by rw [e]
    rcases get_account_or s key with ⟨a, hg⟩ | hg
    · have hl : s.live key a := getOwn_of_get hg
      cases amount with
      | num amt =>
        by_cases hle : amt.le (.fin 0) = true
        · refine Or.inl ?_
          rw [e1]
          simp [postDeposit, hg, Ref.truthy, hle]
        · have hle' : amt.le (.fin 0) = false := by simpa using hle
          refine Or.inr (Or.inr (Or.inr ⟨key, a, a.balance.add amt, hl, ?_,
            Or.inr (Or.inl ⟨amt, hle', rfl⟩)⟩))
          rw [e1]
          simp [postDeposit, hg, Ref.truthy, hle', State.writeBalance, State.readBalance,
            toNumber]
      | _ =>
        refine Or.inl ?_
        rw [e1]
        simp [postDeposit, hg, Ref.truthy]
    · exact Or.inl (e1.trans (postDeposit_accounts_other amount hg))
  | withdraw key amount =>
    have e : postWithdraw s key amount = (s', resp) := Option.some.inj h
    have e1 : s'.accounts = (postWithdraw s key amount).1.accounts := by rw [e]
    rcases get_account_or s key with ⟨a, hg⟩ | hg
    · have hl : s.live key a := getOwn_of_get hg
      cases amount with
      | num amt =>
        by_cases hle : amt.le (.fin 0) = true
        · refine Or.inl ?_
          rw [e1]
          simp [postWithdraw, hg, Ref.truthy, hle]
        · have hle' : amt.le (.fin 0) = false := by simpa using hle
          by_cases hlt : a.balance.lt amt = true
          · refine Or.inl ?_
            rw [e1]
            simp [postWithdraw, hg, Ref.truthy, hle', State.readBalance, toNumber, hlt]
          · have hlt' : a.balance.lt amt = false := by simpa using hlt
            refine Or.inr (Or.inr (Or.inr ⟨key, a, a.balance.sub amt, hl, ?_,
              Or.inr (Or.inr ⟨amt, hle', hlt', rfl⟩)⟩))
            rw [e1]
            simp [postWithdraw, hg, Ref.truthy, hle', State.writeBalance, State.readBalance,
              toNumber, hlt']
      | _ =>
        refine Or.inl ?_
        rw [e1]
        simp [postWithdraw, hg, Ref.truthy]
    · exact Or.inl (e1.trans (postWithdraw_accounts_other amount hg))
  | adminReset token key =>
    have e : adminReset env token s key = (s', resp) := Option.some.inj h
    have e1 : s'.accounts = (adminReset env token s key).1.accounts := by rw [e]
    unfold adminReset at e1
    rcases verifyAdminToken_cases env token s (resetRoute key) with c | c
    · rw [c] at e1
      exact Or.inl e1
    · rw [c] at e1
      rcases get_account_or s key with ⟨a, hg⟩ | hg
      · have hl : s.live key a := getOwn_of_get hg
        refine Or.inr (Or.inr (Or.inr ⟨key, a, .fin 0, hl, ?_, Or.inl rfl⟩))
        rw [e1, resetRoute_live hl]
      · exact Or.inl (e1.trans (resetRoute_accounts_other hg))

/-- In every reachable state each balance is `NaN` or not negative. -/
theorem reachable_balance {env : Option String} {s : State} (h : Reachable env s) :
    ∀ p ∈ s.accounts, p.2.balance = .nan ∨ nonNegative p.2.balance = true := by
  induction h with
  | init =>
    intro p hp
    simp [State.init] at hp
  | step req random fuel _ hstep ih =>
    intro p hp
    rcases handle_balance hstep with e | ⟨key, e⟩ | ⟨key, name, e⟩ | ⟨key, a, v, ha, e, hv⟩
    · rw [e] at hp
      exact ih p hp
    · rw [e] at hp
      exact ih p (List.mem_of_mem_filter hp)
    · rw [e] at hp
      rcases List.mem_append.mp hp with hp | hp
      · exact ih p hp
      · simp only [List.mem_singleton] at hp
        subst hp
        exact Or.inr (show nonNegative (JSNum.fin 0) = true by decide)
    · rw [e] at hp
      obtain ⟨k, x⟩ := p
      obtain ⟨w, hw, hx⟩ := mem_modifyOwn hp
      rcases hx with rfl | rfl
      · exact ih _ hw
      · have hok := ih _ (getOwn_mem ha)
        show v = .nan ∨ nonNegative v = true
        rcases hv with rfl | ⟨amt, hle, rfl⟩ | ⟨amt, hle, hlt, rfl⟩
        · exact Or.inr (show nonNegative (JSNum.fin 0) = true by decide)
        · exact balance_add hok hle
        · exact balance_sub hok hle hlt

theorem modifyOwn_modifyOwn {β : Type} (f g : β → β) (l : List (String × β)) (key : String) :
    modifyOwn g (modifyOwn f l key) key = modifyOwn (fun x => g (f x)) l key := by
  induction l with
  | nil => rfl
  | cons p rest ih =>
    obtain ⟨k, v⟩ := p
    by_cases h : k = key
    · simp [modifyOwn, h]
    · simp [modifyOwn, h, ih]

theorem modifyOwn_eq_self {β : Type} (f : β → β) {l : List (String × β)} {key : String} {v : β}
    (h : getOwn l key = some v) (hf : f v = v) : modifyOwn f l key = l := by
  induction l with
  | nil => rfl
  | cons p rest ih =>
    obtain ⟨k, w⟩ := p
    by_cases hk : k = key
    · simp only [getOwn, hk, if_true, Option.some.injEq] at h
      subst h
      simp [modifyOwn, hk, hf]
    · simp only [getOwn, hk, if_false] at h
      simp [modifyOwn, hk, ih h]

/-- A deposit and a withdrawal of the same amount on a live account whose
balance the two operations leave as it was. -/
theorem roundtrip_of_balance {s : State} {key : String} {acct : Account} {q : ℚ}
    (hlive : s.live key acct) (hq : 0 < q)
    (hlt : (acct.balance.add (.fin q)).lt (.fin q) = false)
    (hback : (acct.balance.add (.fin q)).sub (.fin q) = acct.balance) :
    (postDeposit s key (.num (.fin q))).2.status = 200 ∧
    (postWithdraw (postDeposit s key (.num (.fin q))).1 key (.num (.fin q))).2.status = 200 ∧
    (postWithdraw (postDeposit s key (.num (.fin q))).1 key (.num (.fin q))).1 = s := by
  have hl : getOwn s.accounts key = some acct := hlive
  have hdep := postDeposit_at s.protoBalance s.methodBalance hl hq rfl
  have hdep' : postDeposit s key (.num (.fin q)) = _ := hdep
  have l1 := getOwn_modifyOwn_live (acct.balance.add (.fin q)) hl
  have hwd := postWithdraw_at s.protoBalance s.methodBalance l1 hq hlt hback
  rw [hdep']
  refine ⟨rfl, ?_, ?_⟩
  · rw [hwd]
  · rw [hwd]
    simp only
    rw [modifyOwn_modifyOwn, modifyOwn_eq_self _ hl (by cases acct; rfl)]

/-! ## Sums that are not rounded, and sums that are -/

theorem roundHalfEven_intCast (K : ℤ) : roundHalfEven (K : ℚ) = K :=
  le_antisymm (roundHalfEven_le (by linarith)) (roundHalfEven_ge (le_refl _))

/-- A positive number below `2^1024` that is a multiple of its unit in the last
place is a binary64 value: rounding leaves it as it is. -/
theorem roundDouble_grid {x : ℚ} (hx : 0 < x) (hlt : x < pow2 1024) (K : ℤ)
    (hK : x / pow2 (max (binaryExponent x) (-1022) - 52) = K) : roundDouble x = .fin x := by
  have hu : 0 < pow2 (max (binaryExponent x) (-1022) - 52) := pow2_pos _
  have e : (K : ℚ) * pow2 (max (binaryExponent x) (-1022) - 52) = x := by
    rw [← hK]
    field_simp
  rw [roundDouble_pos hx, hK, roundHalfEven_intCast, e, if_neg (not_le.mpr hlt)]

/-- Every natural number up to `2^53` is a binary64 value. -/
theorem roundDouble_natCast {n : ℕ} (h : n ≤ 9007199254740992) :
    roundDouble (n : ℚ) = .fin n := by
  rcases Nat.eq_zero_or_pos n with h0 | hpos
  · subst h0
    simp [roundDouble]
  have hx : (0 : ℚ) < n := by exact_mod_cast hpos
  have hx1 : (1 : ℚ) ≤ n := by exact_mod_cast hpos
  have hx53 : (n : ℚ) ≤ 9007199254740992 := by exact_mod_cast h
  obtain ⟨hlo, hhi⟩ := binaryExponent_spec hx
  have he0 : 0 ≤ binaryExponent (n : ℚ) := by
    by_contra hneg
    have h1 : binaryExponent (n : ℚ) + 1 ≤ 0 := by omega
    have : (2 : ℚ) ^ (binaryExponent (n : ℚ) + 1) ≤ 2 ^ (0 : ℤ) :=
      zpow_le_zpow_right₀ (by norm_num) h1
    simp only [zpow_zero] at this
    linarith
  have he53 : binaryExponent (n : ℚ) ≤ 53 := by
    by_contra hbig
    have h1 : (54 : ℤ) ≤ binaryExponent (n : ℚ) := by omega
    have : (2 : ℚ) ^ (54 : ℤ) ≤ 2 ^ binaryExponent (n : ℚ) :=
      zpow_le_zpow_right₀ (by norm_num) h1
    norm_num at this
    linarith
  have hmax : max (binaryExponent (n : ℚ)) (-1022) = binaryExponent (n : ℚ) :=
    max_eq_left (by omega)
  have hlt : (n : ℚ) < pow2 1024 := by
    have : (2 : ℚ) ^ (54 : ℤ) ≤ pow2 1024 := by
      rw [pow2_eq_zpow]
      exact zpow_le_zpow_right₀ (by norm_num) (by norm_num)
    norm_num at this
    linarith
  by_cases hc : binaryExponent (n : ℚ) = 53
  · have hn : (n : ℚ) = 9007199254740992 := by
      rw [hc] at hlo
      norm_num at hlo
      exact le_antisymm hx53 (by exact_mod_cast hlo)
    apply roundDouble_grid hx hlt 4503599627370496
    rw [hmax, hc, pow2_eq_zpow, hn]
    norm_num
  · have hk : (0 : ℤ) ≤ 52 - binaryExponent (n : ℚ) := by omega
    apply roundDouble_grid hx hlt ((n * 2 ^ (52 - binaryExponent (n : ℚ)).toNat : ℕ) : ℤ)
    rw [hmax, pow2_eq_zpow]
    have e1 : binaryExponent (n : ℚ) - 52 = -(((52 - binaryExponent (n : ℚ)).toNat : ℕ) : ℤ) := by
      rw [Int.toNat_of_nonneg hk]
      ring
    rw [e1, zpow_neg, zpow_natCast]
    push_cast
    field_simp

theorem roundedSum_succ (q : ℚ) (n : Nat) (x : JSNum) :
    roundedSum q (n + 1) x = roundedSum q n (x.add (.fin q)) := by
  cases x with
  | fin b => rfl
  | nan => cases n <;> rfl
  | pinf => cases n <;> rfl
  | ninf => cases n <;> rfl

/-- Successive deposits of a positive finite amount on a live account are each
answered 200 and leave the balance that the successive binary64 additions give. -/
theorem depositTimes_rounded (key : String) (q : ℚ) (hq : 0 < q) : ∀ (n : Nat) (s : State)
    (acct : Account), s.live key acct →
    (depositTimes key (.num (.fin q)) n s).live key
        ⟨acct.accountNumber, acct.name, roundedSum q n acct.balance⟩ ∧
    ∀ i, i < n →
      (postDeposit (depositTimes key (.num (.fin q)) i s) key (.num (.fin q))).2.status = 200 := by
  intro n
  induction n with
  | zero =>
    intro s acct hlive
    exact ⟨hlive, fun i hi => absurd hi (Nat.not_lt_zero i)⟩
  | succ n ih =>
    intro s acct hlive
    have hstep := postDeposit_live hlive hq
    have hlive1 : (postDeposit s key (.num (.fin q))).1.live key
        ⟨acct.accountNumber, acct.name, acct.balance.add (.fin q)⟩ := by
      rw [hstep]
      show getOwn (modifyOwn _ s.accounts key) key = some _
      rw [getOwn_modifyOwn_same, show getOwn s.accounts key = some acct from hlive]
      rfl
    obtain ⟨ih1, ih2⟩ := ih _ _ hlive1
    constructor
    · rw [roundedSum_succ]
      exact ih1
    · intro i hi
      cases i with
      | zero =>
        show (postDeposit s key (.num (.fin q))).2.status = 200
        rw [hstep]
      | succ i => exact ih2 i (by omega)

/-- When no intermediate sum is rounded, the successive additions give `b + n*q`. -/
theorem roundedSum_exact (q : ℚ) : ∀ (n : Nat) (b : ℚ),
    (∀ i : Nat, 1 ≤ i → i ≤ n → roundDouble (b + i * q) = .fin (b + i * q)) →
    roundedSum q n (.fin b) = .fin (b + n * q) := by
  intro n
  induction n with
  | zero =>
    intro b _
    simp [roundedSum]
  | succ n ih =>
    intro b hexact
    have h1 : roundDouble (b + q) = .fin (b + q) := by
      simpa using hexact 1 (le_refl 1) (by omega)
    show roundedSum q n (roundDouble (b + q)) = _
    rw [h1, ih (b + q)]
    · congr 1
      push_cast
      ring
    · intro i hi1 hi2
      have := hexact (i + 1) (by omega) (by omega)
      have e : b + ((i + 1 : Nat) : ℚ) * q = b + q + i * q := by
        push_cast
        ring
      rw [e] at this
      exact this

theorem reachable_bank_two53 (env : Option String) :
    Reachable env (bank (.fin 9007199254740992)) := by
  have h1 : postDeposit (bank (.fin 0)) "10000000" (.num (.fin 9007199254740992)) =
      (bank (.fin 9007199254740992),
        ⟨200, .json (.account (alice (.fin 9007199254740992)))⟩) := by decide!
  exact Reachable.step (.deposit "10000000" (.num (.fin 9007199254740992)))
    (fun _ => Draw.zero) 0 (reachable_bank env) (congrArg some h1)

/-! ## The claims -/

/-- C1 (defect in the code): the balance does not stay non-negative.  From the
empty registry, creating an account, depositing `Infinity` (the JSON number
`1e999`) and withdrawing `Infinity` are all answered with success, and the
reachable state they lead to holds a live account whose balance is `NaN`, for
which `balance >= 0` is false. -/
theorem balance_nan_reachable :
    postCreate State.init (.str "Alice") (fun _ => Draw.zero) 1 =
      some (bank (.fin 0), ⟨201, .json (.account (alice (.fin 0)))⟩) ∧
    postDeposit (bank (.fin 0)) "10000000" (.num .pinf) =
      (bank .pinf, ⟨200, .json (.account (alice .pinf))⟩) ∧
    postWithdraw (bank .pinf) "10000000" (.num .pinf) =
      (bank .nan, ⟨200, .json (.account (alice .nan))⟩) ∧
    Reachable none (bank .nan) ∧
    (bank .nan).live "10000000" (alice .nan) ∧
    nonNegative (alice .nan).balance = false := by
  have h0 : postCreate State.init (.str "Alice") (fun _ => Draw.zero) 1 =
      some (bank (.fin 0), ⟨201, .json (.account (alice (.fin 0)))⟩) := by
    decide!
  have h1 : postDeposit (bank (.fin 0)) "10000000" (.num .pinf) =
      (bank .pinf, ⟨200, .json (.account (alice .pinf))⟩) := by
    with_unfolding_all decide
  have h2 : postWithdraw (bank .pinf) "10000000" (.num .pinf) =
      (bank .nan, ⟨200, .json (.account (alice .nan))⟩) := by
    with_unfolding_all decide
  refine ⟨h0, h1, h2, ?_, rfl, rfl⟩
  exact Reachable.step (.withdraw "10000000" (.num .pinf)) (fun _ => Draw.zero) 0
    (Reachable.step (.deposit "10000000" (.num .pinf)) (fun _ => Draw.zero) 0
      (Reachable.step (.create (.str "Alice")) (fun _ => Draw.zero) 1 Reachable.init h0)
      (congrArg some h1))
    (congrArg some h2)

/-- C2 (defect in the code): an infinite or `NaN` amount is not rejected.  On a
live account with balance 0, a deposit of `Infinity` and a deposit of `NaN` are
answered 200 and change the stored balance; a withdrawal of `NaN` is answered
200 as well, and a withdrawal of `Infinity` from an infinite balance leaves `NaN`. -/
theorem non_finite_amount_accepted :
    postDeposit (bank (.fin 0)) "10000000" (.num .pinf) =
      (bank .pinf, ⟨200, .json (.account (alice .pinf))⟩) ∧
    postDeposit (bank (.fin 0)) "10000000" (.num .nan) =
      (bank .nan, ⟨200, .json (.account (alice .nan))⟩) ∧
    postWithdraw (bank (.fin 0)) "10000000" (.num .nan) =
      (bank .nan, ⟨200, .json (.account (alice .nan))⟩) ∧
    postWithdraw (bank .pinf) "10000000" (.num .pinf) =
      (bank .nan, ⟨200, .json (.account (alice .nan))⟩) ∧
    bank .pinf ≠ bank (.fin 0) ∧ bank .nan ≠ bank (.fin 0) := by
  refine ⟨?_, ?_, ?_, ?_, ?_, ?_⟩ <;> with_unfolding_all decide

/-- C3, counterexample: a withdrawal with `a <= b` need not leave `b - a`.  On
the reachable balance `2^53` the withdrawal of `0.5` is answered 200 and leaves
the balance at `2^53`, not at `2^53 - 0.5`. -/
theorem withdraw_inexact :
    Reachable none (bank (.fin 9007199254740992)) ∧
    (bank (.fin 9007199254740992)).live "10000000" (alice (.fin 9007199254740992)) ∧
    (0 : ℚ) < 1 / 2 ∧ (1 / 2 : ℚ) ≤ 9007199254740992 ∧
    postWithdraw (bank (.fin 9007199254740992)) "10000000" (.num (.fin (1 / 2))) =
      (bank (.fin 9007199254740992),
        ⟨200, .json (.account (alice (.fin 9007199254740992)))⟩) ∧
    (9007199254740992 : ℚ) ≠ 9007199254740992 - 1 / 2 := by
  refine ⟨reachable_bank_two53 none, rfl, by norm_num, by norm_num, by decide!, by norm_num⟩

/-- C3, amended: on a live account and for a positive finite amount `a`.  If
the balance is a finite `b` with `a <= b`, the withdrawal is answered 200 with
the account, whose stored balance is then the binary64 rounding of `b - a`;
that is exactly `b - a` whenever `b - a` is a binary64 value, in particular
whenever `b` and `a` are integers and `b <= 2^53`.  If the balance is a finite
`b` with `a > b`, or `-Infinity`, the withdrawal is answered 400
`Insufficient funds` and the state, the balance included, is unchanged.  If
the balance is `Infinity` or `NaN`, the withdrawal is answered 200 and the
state is unchanged.  A withdrawal never changes another key of the registry. -/
theorem withdraw_spec (s : State) (key : String) (acct : Account) (q : ℚ)
    (hlive : s.live key acct) (hq : 0 < q) :
    (∀ b : ℚ, acct.balance = .fin b → q ≤ b →
      (postWithdraw s key (.num (.fin q))).2 =
        ⟨200, .json (.account ⟨acct.accountNumber, acct.name, roundDouble (b - q)⟩)⟩ ∧
      (postWithdraw s key (.num (.fin q))).1.live key
        ⟨acct.accountNumber, acct.name, roundDouble (b - q)⟩ ∧
      (roundDouble (b - q) = .fin (b - q) →
        (postWithdraw s key (.num (.fin q))).2 =
          ⟨200, .json (.account ⟨acct.accountNumber, acct.name, .fin (b - q)⟩)⟩ ∧
        (postWithdraw s key (.num (.fin q))).1.live key
          ⟨acct.accountNumber, acct.name, .fin (b - q)⟩) ∧
      (∀ m k : ℕ, b = m → q = k → m ≤ 9007199254740992 →
        (postWithdraw s key (.num (.fin q))).2 =
          ⟨200, .json (.account ⟨acct.accountNumber, acct.name, .fin (b - q)⟩)⟩ ∧
        (postWithdraw s key (.num (.fin q))).1.live key
          ⟨acct.accountNumber, acct.name, .fin (b - q)⟩)) ∧
    ((∃ b : ℚ, acct.balance = .fin b ∧ b < q) ∨ acct.balance = .ninf →
      postWithdraw s key (.num (.fin q)) = (s, ⟨400, .error "Insufficient funds"⟩) ∧
      s.live key acct) ∧
    (acct.balance = .pinf ∨ acct.balance = .nan →
      postWithdraw s key (.num (.fin q)) = (s, ⟨200, .json (.account acct)⟩)) ∧
    (∀ other, other ≠ key →
      getOwn (postWithdraw s key (.num (.fin q))).1.accounts other = getOwn s.accounts other) := by
  have hl : getOwn s.accounts key = some acct := hlive
  refine ⟨?_, ?_, ?_, ?_⟩
  · intro b hb hle
    have hlt : acct.balance.lt (.fin q) = false := by
      rw [hb]
      simp only [JSNum.lt, decide_eq_false_iff_not, not_lt]
      exact hle
    have hsub : acct.balance.sub (.fin q) = roundDouble (b - q) := by
      rw [hb, sub_eq_add_neg]
      rfl
    have hstep := postWithdraw_live_ok hlive hq hlt
    rw [hsub] at hstep
    have hlive1 : (postWithdraw s key (.num (.fin q))).1.live key
        ⟨acct.accountNumber, acct.name, roundDouble (b - q)⟩ := by
      rw [hstep]
      show getOwn (modifyOwn _ s.accounts key) key = some _
      rw [getOwn_modifyOwn_same, hl]
      rfl
    refine ⟨by rw [hstep], hlive1, ?_, ?_⟩
    · intro hexact
      rw [← hexact]
      exact ⟨by rw [hstep], hlive1⟩
    · intro m k hm hk hm53
      have hkm : k ≤ m := by
        have : (k : ℚ) ≤ m := by rw [← hm, ← hk]; exact hle
        exact_mod_cast this
      have e : b - q = ((m - k : ℕ) : ℚ) := by
        rw [hm, hk, Nat.cast_sub hkm]
      have hexact : roundDouble (b - q) = .fin (b - q) := by
        rw [e]
        exact roundDouble_natCast (by omega)
      rw [← hexact]
      exact ⟨by rw [hstep], hlive1⟩
  · intro h
    have hlt : acct.balance.lt (.fin q) = true := by
      rcases h with ⟨b, hb, hbq⟩ | hb
      · rw [hb]
        simp only [JSNum.lt, decide_eq_true_eq]
        exact hbq
      · rw [hb]
        rfl
    exact ⟨postWithdraw_live_short hlive hq hlt, hlive⟩
  · intro h
    have hlt : acct.balance.lt (.fin q) = false := by
      rcases h with hb | hb <;> rw [hb] <;> rfl
    have hsub : acct.balance.sub (.fin q) = acct.balance := by
      rcases h with hb | hb <;> rw [hb] <;> rfl
    rw [postWithdraw_live_ok hlive hq hlt, hsub,
      modifyOwn_eq_self _ hl (by cases acct; rfl)]
  · intro other hne
    rcases postWithdraw_effect s key (.num (.fin q)) with h | ⟨v, h, _⟩
    · rw [h]
    · rw [h]
      exact getOwn_modifyOwn_other _ _ hne

/-- Witness of `withdraw_spec`: 40 withdrawn from 100 leaves 60, and 1000
withdrawn from 60 is refused. -/
theorem withdraw_spec_witness :
    ((postWithdraw (bank (.fin 100)) "10000000" (.num (.fin 40))).2 =
        ⟨200, .json (.account (alice (.fin 60)))⟩ ∧
      (postWithdraw (bank (.fin 100)) "10000000" (.num (.fin 40))).1.live "10000000"
        (alice (.fin 60))) ∧
    (postWithdraw (bank (.fin 60)) "10000000" (.num (.fin 1000)) =
        (bank (.fin 60), ⟨400, .error "Insufficient funds"⟩) ∧
      (bank (.fin 60)).live "10000000" (alice (.fin 60))) := by
  have h := (withdraw_spec (bank (.fin 100)) "10000000" (alice (.fin 100)) 40 rfl
    (by norm_num)).1 100 rfl (by norm_num)
  have h1 := h.2.2.2 100 40 (by norm_num) (by norm_num) (by norm_num)
  rw [show (100 : ℚ) - 40 = 60 by norm_num] at h1
  exact ⟨h1,
    (withdraw_spec (bank (.fin 60)) "10000000" (alice (.fin 60)) 1000 rfl (by norm_num)).2.1
      (Or.inl ⟨60, rfl, by norm_num⟩)⟩

/-- C4, counterexample: a deposit need not leave `b + a`.  On the reachable
balance `2^53` the deposit of 1 is answered 200 and both the returned and the
stored account have balance `2^53`, not `2^53 + 1`. -/
theorem deposit_inexact :
    Reachable none (bank (.fin 9007199254740992)) ∧
    (bank (.fin 9007199254740992)).live "10000000" (alice (.fin 9007199254740992)) ∧
    postDeposit (bank (.fin 9007199254740992)) "10000000" (.num (.fin 1)) =
      (bank (.fin 9007199254740992),
        ⟨200, .json (.account (alice (.fin 9007199254740992)))⟩) ∧
    (9007199254740992 : ℚ) ≠ 9007199254740992 + 1 := by
  refine ⟨reachable_bank_two53 none, rfl, by decide!, by norm_num⟩

/-- C4, amended: on a live account, a deposit of a positive finite amount `a`
is answered 200 with the account; every other key of the registry, its order
and the rest of the state are unchanged.  If the balance is a finite `b`, the
returned and the stored account both have as balance the binary64 rounding of
`b + a`; that is exactly `b + a` whenever `b + a` is a binary64 value, in
particular whenever `b` and `a` are integers and `b + a <= 2^53`.  If the
balance is `NaN` or an infinity, the state is unchanged. -/
theorem deposit_spec (s : State) (key : String) (acct : Account) (q : ℚ)
    (hlive : s.live key acct) (hq : 0 < q) :
    (∀ b : ℚ, acct.balance = .fin b →
      (postDeposit s key (.num (.fin q))).2 =
        ⟨200, .json (.account ⟨acct.accountNumber, acct.name, roundDouble (b + q)⟩)⟩ ∧
      (postDeposit s key (.num (.fin q))).1.live key
        ⟨acct.accountNumber, acct.name, roundDouble (b + q)⟩ ∧
      (roundDouble (b + q) = .fin (b + q) →
        (postDeposit s key (.num (.fin q))).2 =
          ⟨200, .json (.account ⟨acct.accountNumber, acct.name, .fin (b + q)⟩)⟩ ∧
        (postDeposit s key (.num (.fin q))).1.live key
          ⟨acct.accountNumber, acct.name, .fin (b + q)⟩) ∧
      (∀ m k : ℕ, b = m → q = k → m + k ≤ 9007199254740992 →
        (postDeposit s key (.num (.fin q))).2 =
          ⟨200, .json (.account ⟨acct.accountNumber, acct.name, .fin (b + q)⟩)⟩ ∧
        (postDeposit s key (.num (.fin q))).1.live key
          ⟨acct.accountNumber, acct.name, .fin (b + q)⟩)) ∧
    ((∀ b : ℚ, acct.balance ≠ .fin b) →
      postDeposit s key (.num (.fin q)) = (s, ⟨200, .json (.account acct)⟩)) ∧
    (postDeposit s key (.num (.fin q))).2.status = 200 ∧
    (∀ other, other ≠ key →
      getOwn (postDeposit s key (.num (.fin q))).1.accounts other = getOwn s.accounts other) ∧
    (postDeposit s key (.num (.fin q))).1.accounts.map Prod.fst = s.accounts.map Prod.fst ∧
    (postDeposit s key (.num (.fin q))).1.protoBalance = s.protoBalance ∧
    (postDeposit s key (.num (.fin q))).1.methodBalance = s.methodBalance := by
  have hl : getOwn s.accounts key = some acct := hlive
  have hstep := postDeposit_live hlive hq
  refine ⟨?_, ?_, by rw [hstep], ?_, by rw [hstep]; exact map_fst_modifyOwn _ _ _,
    by rw [hstep], by rw [hstep]⟩
  · intro b hb
    have hadd : acct.balance.add (.fin q) = roundDouble (b + q) := by
      rw [hb]
      rfl
    rw [hadd] at hstep
    have hlive1 : (postDeposit s key (.num (.fin q))).1.live key
        ⟨acct.accountNumber, acct.name, roundDouble (b + q)⟩ := by
      rw [hstep]
      show getOwn (modifyOwn _ s.accounts key) key = some _
      rw [getOwn_modifyOwn_same, hl]
      rfl
    refine ⟨by rw [hstep], hlive1, ?_, ?_⟩
    · intro hexact
      rw [← hexact]
      exact ⟨by rw [hstep], hlive1⟩
    · intro m k hm hk h53
      have e : b + q = ((m + k : ℕ) : ℚ) := by
        rw [hm, hk, Nat.cast_add]
      have hexact : roundDouble (b + q) = .fin (b + q) := by
        rw [e]
        exact roundDouble_natCast h53
      rw [← hexact]
      exact ⟨by rw [hstep], hlive1⟩
  · intro h
    have hadd : acct.balance.add (.fin q) = acct.balance := by
      cases hb : acct.balance with
      | fin b => exact absurd hb (h b)
      | nan => rfl
      | pinf => rfl
      | ninf => rfl
    rw [hstep, hadd, modifyOwn_eq_self _ hl (by cases acct; rfl)]
  · intro other hne
    rw [hstep]
    exact getOwn_modifyOwn_other _ _ hne

/-- Witness of `deposit_spec`: 100 deposited on a balance of 0 gives 100. -/
theorem deposit_spec_witness :
    (postDeposit (bank (.fin 0)) "10000000" (.num (.fin 100))).2 =
      ⟨200, .json (.account (alice (.fin 100)))⟩ ∧
    (postDeposit (bank (.fin 0)) "10000000" (.num (.fin 100))).1.live "10000000"
      (alice (.fin 100)) := by
  have h := (deposit_spec (bank (.fin 0)) "10000000" (alice (.fin 0)) 100 rfl
    (by norm_num)).1 0 rfl
  have h1 := h.2.2.2 0 100 (by norm_num) (by norm_num) (by norm_num)
  rw [show (0 : ℚ) + 100 = 100 by norm_num] at h1
  exact h1

/-- C5 (defect in the code): a key that is no live account but names a property
of `Object.prototype` is not answered 404.  In the empty registry `constructor`
is not live, yet `get` answers 200, `deposit`, `withdraw` and an authorised
`reset` answer 200 and write a `balance` on the inherited function, and an
authorised `delete` answers 204; `__proto__` behaves alike. -/
theorem inherited_key_not_rejected :
    getOwn State.init.accounts "constructor" = none ∧
    getAccount State.init "constructor" = (State.init, ⟨200, .json (.method "constructor")⟩) ∧
    postDeposit State.init "constructor" (.num (.fin 5)) =
      (⟨[], none, [("constructor", .nan)]⟩, ⟨200, .json (.method "constructor")⟩) ∧
    postWithdraw State.init "constructor" (.num (.fin 5)) =
      (⟨[], none, [("constructor", .nan)]⟩, ⟨200, .json (.method "constructor")⟩) ∧
    adminReset none (some "supersecrettoken") State.init "constructor" =
      (⟨[], none, [("constructor", .fin 0)]⟩, ⟨200, .json (.method "constructor")⟩) ∧
    adminDelete none (some "supersecrettoken") State.init "constructor" =
      (State.init, ⟨204, .empty⟩) ∧
    getAccount State.init "__proto__" = (State.init, ⟨200, .json .objectPrototype⟩) ∧
    postDeposit State.init "__proto__" (.num (.fin 5)) =
      (⟨[], some .nan, []⟩, ⟨200, .json .objectPrototype⟩) := by
  refine ⟨?_, ?_, ?_, ?_, ?_, ?_, ?_, ?_⟩ <;> with_unfolding_all decide

/-- C6, counterexample: `create` with a valid name need not succeed.  With
account `10000000` live and `Math.random()` returning 0 at every call, and in
the registry where every 8-digit number is in use whatever `Math.random()`
returns, the loop of `generateAccountNumber` never ends and no response is sent. -/
theorem create_never_returns :
    (∀ fuel, postCreate (bank (.fin 0)) (.str "Bob") (fun _ => Draw.zero) fuel = none) ∧
    (∀ random fuel, postCreate fullRegistry (.str "Bob") random fuel = none) := by
  constructor
  · intro fuel
    have h : generateAccountNumber (bank (.fin 0)) (fun _ => Draw.zero) fuel = none :=
      generateAccountNumber_none fuel _ (fun _ => by decide!)
    simp [postCreate, JSVal.truthy, h]
  · intro random fuel
    have h : generateAccountNumber fullRegistry random fuel = none :=
      generateAccountNumber_none fuel _ (fun i => truthy_get_fullRegistry (random i))
    simp [postCreate, JSVal.truthy, h]

/-- C6, amended: for every state and every non-empty name, if `Math.random()`
yields at some call a number that is not live, then there is a first such call
`m`, and `create`, given more than `m` loop iterations, answers 201 with the
account of that number, the given name and balance 0; the number was not live
before, and the registry afterwards is the prior one, unchanged, followed by
the new account. -/
theorem create_spec (s : State) (name : String) (random : Nat → Draw) (n : Nat)
    (hname : name ≠ "")
    (hfree : getOwn s.accounts (toString (candidate (random n))) = none) :
    ∃ m, m ≤ n ∧
      (∀ i, i < m → (getOwn s.accounts (toString (candidate (random i)))).isSome = true) ∧
      getOwn s.accounts (toString (candidate (random m))) = none ∧
      ∀ fuel, m < fuel →
        postCreate s (.str name) random fuel =
          some (⟨s.accounts ++ [(toString (candidate (random m)),
                    ⟨toString (candidate (random m)), .str name, .fin 0⟩)],
                  s.protoBalance, s.methodBalance⟩,
                ⟨201, .json (.account
                    ⟨toString (candidate (random m)), .str name, .fin 0⟩)⟩) := by
  have hex : ∃ i, getOwn s.accounts (toString (candidate (random i))) = none := ⟨n, hfree⟩
  refine ⟨Nat.find hex, Nat.find_le hfree, ?_, Nat.find_spec hex, ?_⟩
  · intro i hi
    have := Nat.find_min hex hi
    cases hc : getOwn s.accounts (toString (candidate (random i))) with
    | none => exact absurd hc this
    | some a => rfl
  · intro fuel hfuel
    have hnone := Nat.find_spec hex
    have hgen : generateAccountNumber s random fuel =
        some (toString (candidate (random (Nat.find hex)))) := by
      apply generateAccountNumber_first (Nat.find hex) random _ _ fuel hfuel
      · rw [truthy_get_toString, hnone]
        rfl
      · intro i hi
        rw [truthy_get_toString]
        have := Nat.find_min hex hi
        cases hc : getOwn s.accounts (toString (candidate (random i))) with
        | none => exact absurd hc this
        | some a => rfl
    have hget : ∀ l : List (String × Account),
        getOwn l (toString (candidate (random (Nat.find hex)))) = none →
        State.get ⟨l ++ [(toString (candidate (random (Nat.find hex))),
              ⟨toString (candidate (random (Nat.find hex))), .str name, .fin 0⟩)],
            s.protoBalance, s.methodBalance⟩
          (toString (candidate (random (Nat.find hex)))) =
          .account ⟨toString (candidate (random (Nat.find hex))), .str name, .fin 0⟩ := by
      intro l hl
      rw [get_of_isNumeral _ (isNumeral_toString _)]
      simp [getOwn_append_single, hl]
    simp only [postCreate, JSVal.truthy, JSVal.printable, hgen, putOwn, hnone]
    simp [hname, hget s.accounts hnone]

/-- Witness of `create_spec`: the first account created in the empty registry. -/
theorem create_spec_witness :
    ∃ m, m ≤ 0 ∧
      (∀ i, i < m → (getOwn State.init.accounts
          (toString (candidate ((fun _ => Draw.zero) i)))).isSome = true) ∧
      getOwn State.init.accounts (toString (candidate ((fun _ => Draw.zero) m))) = none ∧
      ∀ fuel, m < fuel →
        postCreate State.init (.str "Alice") (fun _ => Draw.zero) fuel =
          some (⟨State.init.accounts ++ [(toString (candidate ((fun _ => Draw.zero) m)),
                    ⟨toString (candidate ((fun _ => Draw.zero) m)), .str "Alice", .fin 0⟩)],
                  State.init.protoBalance, State.init.methodBalance⟩,
                ⟨201, .json (.account
                    ⟨toString (candidate ((fun _ => Draw.zero) m)), .str "Alice", .fin 0⟩)⟩) :=
  create_spec State.init "Alice" (fun _ => Draw.zero) 0 (by decide) rfl

/-- C7: the admin gate lets a request through exactly when the header
`x-admin-token` is present and equal to the configured secret, which is never
empty.  A missing, an empty and any other token are answered 403 with the state
unchanged by `list`, `reset` and `delete`; with the secret itself each of them
runs its route. -/
theorem admin_gate (env : Option String) (token : Option String) (s : State) (key : String)
    (next : State → State × Response) :
    verifyAdminToken env token s next =
      (if token = some (ADMIN_TOKEN env) then next s else (s, accessDenied)) ∧
    ADMIN_TOKEN env ≠ "" ∧
    verifyAdminToken env none s next = (s, accessDenied) ∧
    verifyAdminToken env (some "") s next = (s, accessDenied) ∧
    accessDenied.status = 403 ∧
    adminList env token s =
      (if token = some (ADMIN_TOKEN env) then (s, ⟨200, .list (objectValues s.accounts)⟩)
       else (s, accessDenied)) ∧
    adminReset env token s key =
      (if token = some (ADMIN_TOKEN env) then resetRoute key s else (s, accessDenied)) ∧
    adminDelete env token s key =
      (if token = some (ADMIN_TOKEN env) then deleteRoute key s else (s, accessDenied)) := by
  have gate : ∀ next : State → State × Response, verifyAdminToken env token s next =
      (if token = some (ADMIN_TOKEN env) then next s else (s, accessDenied)) := by
    intro next
    by_cases h : token = some (ADMIN_TOKEN env)
    · rw [if_pos h, h]
      exact verifyAdminToken_pass env s next
    · rw [if_neg h]
      exact verifyAdminToken_stop env token s next h
  refine ⟨gate next, ADMIN_TOKEN_ne_empty env, rfl, ?_, rfl, gate _, gate _, gate _⟩
  simp [verifyAdminToken]

/-- C8: in every reachable state, an authorised `delete` of a live account
number is answered 204 with an empty body, a `get` of that number in the state
it leaves is answered 404, and every other key still holds its account. -/
theorem delete_spec (env : Option String) (s : State) (n : String) (acct : Account)
    (hr : Reachable env s) (hlive : s.live n acct) :
    (adminDelete env (some (ADMIN_TOKEN env)) s n).2 = ⟨204, .empty⟩ ∧
    getAccount (adminDelete env (some (ADMIN_TOKEN env)) s n).1 n =
      ((adminDelete env (some (ADMIN_TOKEN env)) s n).1, ⟨404, .error "Account not found"⟩) ∧
    (∀ other, other ≠ n →
      getOwn (adminDelete env (some (ADMIN_TOKEN env)) s n).1.accounts other =
        getOwn s.accounts other) ∧
    (adminDelete env (some (ADMIN_TOKEN env)) s n).1.protoBalance = s.protoBalance ∧
    (adminDelete env (some (ADMIN_TOKEN env)) s n).1.methodBalance = s.methodBalance := by
  have hnum := (isNumeral_of_live (reachable_wellFormed hr) hlive).1
  have hdel : adminDelete env (some (ADMIN_TOKEN env)) s n =
      ({ s with accounts := deleteOwn s.accounts n }, ⟨204, .empty⟩) := by
    unfold adminDelete
    rw [verifyAdminToken_pass]
    simp [deleteRoute, get_of_live hlive, Ref.truthy]
  rw [hdel]
  refine ⟨rfl, ?_, ?_, rfl, rfl⟩
  · have hget : State.get { s with accounts := deleteOwn s.accounts n } n = .undefined := by
      rw [get_of_isNumeral _ hnum]
      simp [getOwn_deleteOwn_same]
    simp [getAccount, hget, Ref.truthy, notFound]
  · intro other hne
    exact getOwn_deleteOwn_other _ hne

/-- Witness of `delete_spec`: Alice's account, just created, is deleted. -/
theorem delete_spec_witness :
    (adminDelete none (some (ADMIN_TOKEN none)) (bank (.fin 0)) "10000000").2 = ⟨204, .empty⟩ ∧
    getAccount (adminDelete none (some (ADMIN_TOKEN none)) (bank (.fin 0)) "10000000").1
        "10000000" =
      ((adminDelete none (some (ADMIN_TOKEN none)) (bank (.fin 0)) "10000000").1,
        ⟨404, .error "Account not found"⟩) :=
  ⟨(delete_spec none (bank (.fin 0)) "10000000" (alice (.fin 0)) (reachable_bank none) rfl).1,
   (delete_spec none (bank (.fin 0)) "10000000" (alice (.fin 0)) (reachable_bank none) rfl).2.1⟩

/-- C9: for every state and every live account, whatever its balance, an
authorised `reset` is answered 200 with that account at balance 0, its name and
number as before; the other keys, the order of the registry and the rest of the
state are unchanged, and a second `reset` leaves the state of the first. -/
theorem reset_spec (env : Option String) (s : State) (key : String) (acct : Account)
    (hlive : s.live key acct) :
    (adminReset env (some (ADMIN_TOKEN env)) s key).2 =
      ⟨200, .json (.account ⟨acct.accountNumber, acct.name, .fin 0⟩)⟩ ∧
    (adminReset env (some (ADMIN_TOKEN env)) s key).1.live key
      ⟨acct.accountNumber, acct.name, .fin 0⟩ ∧
    (∀ other, other ≠ key →
      getOwn (adminReset env (some (ADMIN_TOKEN env)) s key).1.accounts other =
        getOwn s.accounts other) ∧
    (adminReset env (some (ADMIN_TOKEN env)) s key).1.accounts.map Prod.fst =
      s.accounts.map Prod.fst ∧
    (adminReset env (some (ADMIN_TOKEN env)) s key).1.protoBalance = s.protoBalance ∧
    (adminReset env (some (ADMIN_TOKEN env)) s key).1.methodBalance = s.methodBalance ∧
    (adminReset env (some (ADMIN_TOKEN env))
        (adminReset env (some (ADMIN_TOKEN env)) s key).1 key).1 =
      (adminReset env (some (ADMIN_TOKEN env)) s key).1 := by
  have hreset : ∀ (t : State) (a : Account), t.live key a →
      adminReset env (some (ADMIN_TOKEN env)) t key =
        ({ t with accounts := modifyOwn (fun x => { x with balance := .fin 0 }) t.accounts key },
         ⟨200, .json (.account { a with balance := .fin 0 })⟩) := by
    intro t a h
    unfold adminReset
    rw [verifyAdminToken_pass]
    exact resetRoute_live h
  have hlive' : State.live
      { s with accounts := modifyOwn (fun x => { x with balance := .fin 0 }) s.accounts key }
      key ⟨acct.accountNumber, acct.name, .fin 0⟩ := by
    show getOwn (modifyOwn _ s.accounts key) key = some _
    rw [getOwn_modifyOwn_same, show getOwn s.accounts key = some acct from hlive]
    rfl
  rw [hreset s acct hlive]
  refine ⟨rfl, hlive', ?_, map_fst_modifyOwn _ _ _, rfl, rfl, ?_⟩
  · intro other hne
    exact getOwn_modifyOwn_other _ _ hne
  · rw [hreset _ _ hlive']
    simp only
    rw [modifyOwn_idem (fun x : Account => { x with balance := .fin 0 }) (fun _ => rfl)]

/-- Witness of `reset_spec`: Alice's balance of 60 is reset. -/
theorem reset_spec_witness :
    (adminReset none (some (ADMIN_TOKEN none)) (bank (.fin 60)) "10000000").2 =
      ⟨200, .json (.account ⟨"10000000", .str "Alice", .fin 0⟩)⟩ ∧
    (adminReset none (some (ADMIN_TOKEN none)) (bank (.fin 60)) "10000000").1.live "10000000"
      ⟨"10000000", .str "Alice", .fin 0⟩ :=
  ⟨(reset_spec none (bank (.fin 60)) "10000000" (alice (.fin 60)) rfl).1,
   (reset_spec none (bank (.fin 60)) "10000000" (alice (.fin 60)) rfl).2.1⟩

/-- C10: in every reachable state each key of `accounts` is the `accountNumber`
stored under it and no two entries share a number; and whatever request is
handled next, an account live before and after it keeps its number and its
name, and its balance differs only if the request was a deposit, a withdrawal
or a reset naming that account and was answered 200. -/
theorem account_identity (env : Option String) (s : State) (hr : Reachable env s) :
    (∀ key a, (key, a) ∈ s.accounts → a.accountNumber = key) ∧
    (s.accounts.map (fun p => p.2.accountNumber)).Nodup ∧
    (∀ (req : Request) (random : Nat → Draw) (fuel : Nat) (s' : State) (resp : Response),
      handle env s random fuel req = some (s', resp) →
      ∀ key a a', s.live key a → s'.live key a' →
        a'.accountNumber = a.accountNumber ∧ a'.name = a.name ∧
        (a'.balance ≠ a.balance → resp.status = 200 ∧ req.target = some key)) := by
  have hw := reachable_wellFormed hr
  refine ⟨fun key a h => (hw.1 key a h).1, ?_, ?_⟩
  · have e : s.accounts.map (fun p => p.2.accountNumber) = s.accounts.map Prod.fst := by
      apply List.map_congr_left
      intro p hp
      exact (hw.1 p.1 p.2 hp).1
    rw [e]
    exact hw.2
  · intro req random fuel s' resp hstep key a a' hl hl'
    have hl0 : getOwn s.accounts key = some a := hl
    have hl1 : getOwn s'.accounts key = some a' := hl'
    rcases handle_effect hstep with e | ⟨k, v, e, hst, htg⟩ | ⟨k, e⟩ | ⟨r, name, _, e⟩
    · rw [e, hl0] at hl1
      obtain rfl : a = a' := Option.some.inj hl1
      exact ⟨rfl, rfl, fun h => absurd rfl h⟩
    · by_cases hk : key = k
      · subst hk
        rw [e, getOwn_modifyOwn_same, hl0] at hl1
        obtain rfl := Option.some.inj hl1
        exact ⟨rfl, rfl, fun _ => ⟨hst, htg⟩⟩
      · rw [e, getOwn_modifyOwn_other _ _ hk, hl0] at hl1
        obtain rfl : a = a' := Option.some.inj hl1
        exact ⟨rfl, rfl, fun h => absurd rfl h⟩
    · by_cases hk : key = k
      · subst hk
        rw [e, getOwn_deleteOwn_same] at hl1
        exact absurd hl1 (by simp)
      · rw [e, getOwn_deleteOwn_other _ hk, hl0] at hl1
        obtain rfl : a = a' := Option.some.inj hl1
        exact ⟨rfl, rfl, fun h => absurd rfl h⟩
    · rw [e, getOwn_append_single, hl0] at hl1
      obtain rfl : a = a' := Option.some.inj hl1
      exact ⟨rfl, rfl, fun h => absurd rfl h⟩

/-- Witness of `account_identity`: in the registry holding Alice's new account,
the key is her number, and a deposit of 100 keeps her number and name and
changes her balance by a request answered 200 that names her account. -/
theorem account_identity_witness :
    (alice (.fin 0)).accountNumber = "10000000" ∧
    ((alice (.fin 100)).accountNumber = (alice (.fin 0)).accountNumber ∧
      (alice (.fin 100)).name = (alice (.fin 0)).name ∧
      ((alice (.fin 100)).balance ≠ (alice (.fin 0)).balance →
        (⟨200, .json (.account (alice (.fin 100)))⟩ : Response).status = 200 ∧
        (Request.deposit "10000000" (.num (.fin 100))).target = some "10000000")) :=
  ⟨(account_identity none (bank (.fin 0)) (reachable_bank none)).1 "10000000" (alice (.fin 0))
      (by simp [bank]),
   (account_identity none (bank (.fin 0)) (reachable_bank none)).2.2
      (.deposit "10000000" (.num (.fin 100))) (fun _ => Draw.zero) 0 (bank (.fin 100))
      ⟨200, .json (.account (alice (.fin 100)))⟩
      (by
        show some (postDeposit (bank (.fin 0)) "10000000" (.num (.fin 100))) = some _
        decide!)
      "10000000" (alice (.fin 0)) (alice (.fin 100)) rfl rfl⟩

/-- C11, counterexample: the first step of the scenario need not have an
answer.  From the registry in which every 8-digit number is in use
`create("Alice")` never returns, whatever `Math.random()` yields; and from the
registry holding account `10000000` it never returns while `Math.random()`
yields 0. -/
theorem scenario_create_never_returns :
    (∀ (random : Nat → Draw) (fuel : Nat),
      postCreate fullRegistry (.str "Alice") random fuel = none) ∧
    (∀ fuel : Nat,
      postCreate (bank (.fin 0)) (.str "Alice") (fun _ => Draw.zero) fuel = none) := by
  constructor
  · intro random fuel
    have h : generateAccountNumber fullRegistry random fuel = none :=
      generateAccountNumber_none fuel _ (fun i => truthy_get_fullRegistry (random i))
    simp [postCreate, JSVal.truthy, h]
  · intro fuel
    have h : generateAccountNumber (bank (.fin 0)) (fun _ => Draw.zero) fuel = none :=
      generateAccountNumber_none fuel _ (fun _ => by decide!)
    simp [postCreate, JSVal.truthy, h]

/-- C11, amended: from any starting registry in which `Math.random()` yields
at some call a number that is not live, `create("Alice")` answers 201 with an
account `acc` of balance 0; then `deposit(acc, 100)` answers 200 with balance
100, `withdraw(acc, 40)` answers 200 with balance 60, `withdraw(acc, 1000)` is
refused with 400 and the balance stays 60, an authorised `reset(acc)` answers
200 with balance 0, an authorised `delete(acc)` answers 204, and `get(acc)`
then answers 404. -/
theorem scenario_spec (env : Option String) (s : State) (random : Nat → Draw) (n : Nat)
    (hfree : getOwn s.accounts (toString (candidate (random n))) = none) :
    ∃ m, m ≤ n ∧ ∀ fuel, m < fuel → ∃ s1 s2 s3 s4 s5 : State,
      postCreate s (.str "Alice") random fuel =
        some (s1, ⟨201, .json (.account
          ⟨toString (candidate (random m)), .str "Alice", .fin 0⟩)⟩) ∧
      postDeposit s1 (toString (candidate (random m))) (.num (.fin 100)) =
        (s2, ⟨200, .json (.account
          ⟨toString (candidate (random m)), .str "Alice", .fin 100⟩)⟩) ∧
      postWithdraw s2 (toString (candidate (random m))) (.num (.fin 40)) =
        (s3, ⟨200, .json (.account
          ⟨toString (candidate (random m)), .str "Alice", .fin 60⟩)⟩) ∧
      postWithdraw s3 (toString (candidate (random m))) (.num (.fin 1000)) =
        (s3, ⟨400, .error "Insufficient funds"⟩) ∧
      s3.live (toString (candidate (random m)))
        ⟨toString (candidate (random m)), .str "Alice", .fin 60⟩ ∧
      adminReset env (some (ADMIN_TOKEN env)) s3 (toString (candidate (random m))) =
        (s4, ⟨200, .json (.account
          ⟨toString (candidate (random m)), .str "Alice", .fin 0⟩)⟩) ∧
      adminDelete env (some (ADMIN_TOKEN env)) s4 (toString (candidate (random m))) =
        (s5, ⟨204, .empty⟩) ∧
      getAccount s5 (toString (candidate (random m))) =
        (s5, ⟨404, .error "Account not found"⟩) := by
  obtain ⟨m, hm, hnone, hbefore⟩ := exists_first_free hfree
  refine ⟨m, hm, ?_⟩
  intro fuel hfuel
  have hcreate : postCreate s (.str "Alice") random fuel = _ :=
    postCreate_of_first (show (JSVal.str "Alice").truthy = true by decide)
      (show (JSVal.str "Alice").printable = true from rfl) hnone hbefore hfuel
  have hnum : isNumeral (toString (candidate (random m))) = true := isNumeral_toString _
  generalize toString (candidate (random m)) = k at hcreate hnone hnum ⊢
  have l1 : getOwn (s.accounts ++ [(k, (⟨k, .str "Alice", .fin 0⟩ : Account))]) k =
      some ⟨k, .str "Alice", .fin 0⟩ := by
    rw [getOwn_append_single, hnone]
    simp
  have l2 : getOwn (modifyOwn (fun x : Account => { x with balance := .fin 100 }) _ k) k =
      some ⟨k, .str "Alice", .fin 100⟩ := getOwn_modifyOwn_live (.fin 100) l1
  have l3 : getOwn (modifyOwn (fun x : Account => { x with balance := .fin 60 }) _ k) k =
      some ⟨k, .str "Alice", .fin 60⟩ := getOwn_modifyOwn_live (.fin 60) l2
  have l4 : getOwn (modifyOwn (fun x : Account => { x with balance := .fin 0 }) _ k) k =
      some ⟨k, .str "Alice", .fin 0⟩ := getOwn_modifyOwn_live (.fin 0) l3
  have hdep := postDeposit_at s.protoBalance s.methodBalance l1
    (show (0 : ℚ) < 100 by norm_num) roundDouble_100
  have hwd := postWithdraw_at s.protoBalance s.methodBalance l2
    (show (0 : ℚ) < 40 by norm_num) (show JSNum.lt (.fin 100) (.fin 40) = false by decide)
    roundDouble_60
  have hshort := postWithdraw_short_at s.protoBalance s.methodBalance l3
    (show (0 : ℚ) < 1000 by norm_num) (show JSNum.lt (.fin 60) (.fin 1000) = true by decide)
  have hreset := adminReset_at env s.protoBalance s.methodBalance l3
  have hdel := adminDelete_at env s.protoBalance s.methodBalance l4
  exact ⟨_, _, _, _, _, hcreate, hdep, hwd, hshort, l3, hreset, hdel,
    getAccount_after_delete _ _ _ hnum⟩

/-- Witness of `scenario_spec`: the scenario run from the empty registry with
`Math.random()` returning 0. -/
theorem scenario_spec_witness :
    ∃ m, m ≤ 0 ∧ ∀ fuel, m < fuel → ∃ s1 s2 s3 s4 s5 : State,
      postCreate State.init (.str "Alice") (fun _ => Draw.zero) fuel =
        some (s1, ⟨201, .json (.account
          ⟨toString (candidate ((fun _ => Draw.zero) m)), .str "Alice", .fin 0⟩)⟩) ∧
      postDeposit s1 (toString (candidate ((fun _ => Draw.zero) m))) (.num (.fin 100)) =
        (s2, ⟨200, .json (.account
          ⟨toString (candidate ((fun _ => Draw.zero) m)), .str "Alice", .fin 100⟩)⟩) ∧
      postWithdraw s2 (toString (candidate ((fun _ => Draw.zero) m))) (.num (.fin 40)) =
        (s3, ⟨200, .json (.account
          ⟨toString (candidate ((fun _ => Draw.zero) m)), .str "Alice", .fin 60⟩)⟩) ∧
      postWithdraw s3 (toString (candidate ((fun _ => Draw.zero) m))) (.num (.fin 1000)) =
        (s3, ⟨400, .error "Insufficient funds"⟩) ∧
      s3.live (toString (candidate ((fun _ => Draw.zero) m)))
        ⟨toString (candidate ((fun _ => Draw.zero) m)), .str "Alice", .fin 60⟩ ∧
      adminReset none (some (ADMIN_TOKEN none)) s3
          (toString (candidate ((fun _ => Draw.zero) m))) =
        (s4, ⟨200, .json (.account
          ⟨toString (candidate ((fun _ => Draw.zero) m)), .str "Alice", .fin 0⟩)⟩) ∧
      adminDelete none (some (ADMIN_TOKEN none)) s4
          (toString (candidate ((fun _ => Draw.zero) m))) =
        (s5, ⟨204, .empty⟩) ∧
      getAccount s5 (toString (candidate ((fun _ => Draw.zero) m))) =
        (s5, ⟨404, .error "Account not found"⟩) :=
  scenario_spec none State.init (fun _ => Draw.zero) 0 rfl

/-- C12: `create` with an empty or an absent name is answered 400 with an
error body, inserts nothing and leaves the state unchanged; with a non-empty
string as name it is never answered with an error (whatever it answers is the
201 of the new account), and it does answer once a free number is drawn. -/
theorem create_validation (s : State) (random : Nat → Draw) (fuel : Nat) (name : String) :
    postCreate s (.str "") random fuel =
      some (s, ⟨400, .error "Account holder name is required"⟩) ∧
    postCreate s .undefined random fuel =
      some (s, ⟨400, .error "Account holder name is required"⟩) ∧
    (name ≠ "" →
      (∀ s' resp, postCreate s (.str name) random fuel = some (s', resp) →
        resp.status = 201) ∧
      (∀ n, getOwn s.accounts (toString (candidate (random n))) = none →
        ∃ s' acct, postCreate s (.str name) random (n + 1) =
          some (s', ⟨201, .json (.account acct)⟩))) := by
  refine ⟨rfl, rfl, ?_⟩
  intro hname
  have ht : (JSVal.str name).truthy = true := by simp [JSVal.truthy, hname]
  refine ⟨fun s' resp h => postCreate_status ht rfl h, ?_⟩
  intro n hfree
  obtain ⟨m, hm, hnone, hbefore⟩ := exists_first_free hfree
  exact ⟨_, _, postCreate_of_first ht rfl hnone hbefore (Nat.lt_succ_of_le hm)⟩

/-- Witness of `create_validation`: the name `Alice` in the empty registry. -/
theorem create_validation_witness :
    (⟨201, .json (.account (alice (.fin 0)))⟩ : Response).status = 201 ∧
    (∃ s' acct, postCreate State.init (.str "Alice") (fun _ => Draw.zero) (0 + 1) =
      some (s', ⟨201, .json (.account acct)⟩)) :=
  ⟨((create_validation State.init (fun _ => Draw.zero) 1 "Alice").2.2 (by decide)).1
      (bank (.fin 0)) ⟨201, .json (.account (alice (.fin 0)))⟩ (by decide!),
   ((create_validation State.init (fun _ => Draw.zero) 1 "Alice").2.2 (by decide)).2 0 rfl⟩

/-- C13, counterexample: successive deposits do not add up to `n*a`.  On the
reachable balance `2^53`, two deposits of 1 are each answered 200 and leave
the balance at `2^53`, not `2^53 + 2`; and ten deposits of the binary64 value
of `0.1` on balance 0 leave `1 - 2^-53`, which is neither ten times that value
nor the binary64 product `10 * 0.1 = 1`. -/
theorem repeated_deposit_inexact :
    Reachable none (bank (.fin 9007199254740992)) ∧
    postDeposit (bank (.fin 9007199254740992)) "10000000" (.num (.fin 1)) =
      (bank (.fin 9007199254740992),
        ⟨200, .json (.account (alice (.fin 9007199254740992)))⟩) ∧
    depositTimes "10000000" (.num (.fin 1)) 2 (bank (.fin 9007199254740992)) =
      bank (.fin 9007199254740992) ∧
    (9007199254740992 : ℚ) ≠ 9007199254740992 + 2 * 1 ∧
    depositTimes "10000000" (.num (.fin (3602879701896397 / 36028797018963968))) 10
        (bank (.fin 0)) =
      bank (.fin (9007199254740991 / 9007199254740992)) ∧
    (9007199254740991 / 9007199254740992 : ℚ) ≠
      0 + 10 * (3602879701896397 / 36028797018963968) ∧
    roundDouble (0 + 10 * (3602879701896397 / 36028797018963968)) = .fin 1 := by
  exact ⟨reachable_bank_two53 none, by decide!, by decide!, by norm_num, by decide!,
    by norm_num, by decide!⟩

/-- C13, amended: for a live account with finite balance `b`, a positive
finite amount `a` and any `n`, the `n` successive deposits of `a` are each
answered 200, and the balance they leave is the result of `n` successive
binary64 additions of `a` to `b` (`roundedSum`); that result is exactly
`b + n*a` whenever every intermediate sum `b + i*a`, `1 ≤ i ≤ n`, is a
binary64 value, in particular whenever `b` and `a` are integers and
`b + n*a <= 2^53`. -/
theorem repeated_deposit_spec (s : State) (key : String) (acct : Account) (b q : ℚ) (n : Nat)
    (hlive : s.live key acct) (hb : acct.balance = .fin b) (hq : 0 < q) :
    (∀ i, i < n →
      (postDeposit (depositTimes key (.num (.fin q)) i s) key (.num (.fin q))).2.status = 200) ∧
    (depositTimes key (.num (.fin q)) n s).live key
        ⟨acct.accountNumber, acct.name, roundedSum q n (.fin b)⟩ ∧
    ((∀ i : Nat, 1 ≤ i → i ≤ n → roundDouble (b + i * q) = .fin (b + i * q)) →
      (depositTimes key (.num (.fin q)) n s).live key
        ⟨acct.accountNumber, acct.name, .fin (b + n * q)⟩) ∧
    (∀ m k : ℕ, b = m → q = k → m + n * k ≤ 9007199254740992 →
      (depositTimes key (.num (.fin q)) n s).live key
        ⟨acct.accountNumber, acct.name, .fin (b + n * q)⟩) := by
  obtain ⟨h1, h2⟩ := depositTimes_rounded key q hq n s acct hlive
  rw [hb] at h1
  refine ⟨h2, h1, ?_, ?_⟩
  · intro hexact
    rw [← roundedSum_exact q n b hexact]
    exact h1
  · intro m k hm hk h53
    have hexact : ∀ i : Nat, 1 ≤ i → i ≤ n →
        roundDouble (b + i * q) = .fin (b + i * q) := by
      intro i _ hi
      have e : b + (i : ℚ) * q = ((m + i * k : ℕ) : ℚ) := by
        rw [hm, hk]
        push_cast
        ring
      rw [e]
      apply roundDouble_natCast
      have : i * k ≤ n * k := Nat.mul_le_mul_right k hi
      omega
    rw [← roundedSum_exact q n b hexact]
    exact h1

/-- Witness of `repeated_deposit_spec`: three deposits of 100 on balance 0
are each answered 200 and leave 300; three deposits of the binary64 value of
`0.1` are each answered 200 and leave `0.30000000000000004`, which is not
three times that value. -/
theorem repeated_deposit_spec_witness :
    ((postDeposit (depositTimes "10000000" (.num (.fin 100)) 2 (bank (.fin 0))) "10000000"
        (.num (.fin 100))).2.status = 200 ∧
      (depositTimes "10000000" (.num (.fin 100)) 3 (bank (.fin 0))).live "10000000"
        (alice (.fin 300))) ∧
    ((postDeposit (depositTimes "10000000" (.num (.fin (3602879701896397 / 36028797018963968)))
        2 (bank (.fin 0))) "10000000"
        (.num (.fin (3602879701896397 / 36028797018963968)))).2.status = 200 ∧
      (depositTimes "10000000" (.num (.fin (3602879701896397 / 36028797018963968))) 3
        (bank (.fin 0))).live "10000000"
        (alice (.fin (1351079888211149 / 4503599627370496))) ∧
      (1351079888211149 / 4503599627370496 : ℚ) ≠ 0 + 3 * (3602879701896397 / 36028797018963968)) := by
  have h := repeated_deposit_spec (bank (.fin 0)) "10000000" (alice (.fin 0)) 0 100 3 rfl rfl
    (by norm_num)
  have h3 := h.2.2.2 0 100 (by norm_num) (by norm_num) (by norm_num)
  rw [show (0 : ℚ) + ((3 : ℕ) : ℚ) * 100 = 300 by norm_num] at h3
  have g := repeated_deposit_spec (bank (.fin 0)) "10000000" (alice (.fin 0)) 0
    (3602879701896397 / 36028797018963968) 3 rfl rfl (by norm_num)
  have g3 := g.2.1
  rw [show roundedSum (3602879701896397 / 36028797018963968) 3 (.fin 0) =
    .fin (1351079888211149 / 4503599627370496) by decide!] at g3
  exact ⟨⟨h.1 2 (by decide), h3⟩, g.1 2 (by decide), g3, by norm_num⟩

/-- C14 (defect in the code): not every response carries the status the
interface table assigns.  With only account `10000000` live, `toString` is an
unknown account, yet `get` answers it with 200 and an authorised `delete` with
204 instead of 404; and a deposit of `Infinity`, an invalid amount, is answered
200 instead of 400. -/
theorem status_table_violated :
    getOwn (bank (.fin 50)).accounts "toString" = none ∧
    getAccount (bank (.fin 50)) "toString" =
      (bank (.fin 50), ⟨200, .json (.method "toString")⟩) ∧
    adminDelete none (some "supersecrettoken") (bank (.fin 50)) "toString" =
      (bank (.fin 50), ⟨204, .empty⟩) ∧
    (postDeposit (bank (.fin 50)) "10000000" (.num .pinf)).2 =
      ⟨200, .json (.account (alice .pinf))⟩ := by
  refine ⟨?_, ?_, ?_, ?_⟩ <;> decide!

/-- C15: in every reachable state an authorised `list` answers 200 with the
enumeration of `accounts` and leaves the state unchanged; the enumeration is a
rearrangement of the stored accounts, as long as the registry, without
repetition, and an account is in it exactly when it is live. -/
theorem list_spec (env : Option String) (s : State) (hr : Reachable env s) :
    adminList env (some (ADMIN_TOKEN env)) s =
      (s, ⟨200, .list (objectValues s.accounts)⟩) ∧
    (objectValues s.accounts).Perm (s.accounts.map Prod.snd) ∧
    (objectValues s.accounts).length = s.accounts.length ∧
    (objectValues s.accounts).Nodup ∧
    (∀ a, a ∈ objectValues s.accounts ↔ ∃ key, s.live key a) := by
  obtain ⟨hkey, hnd⟩ := reachable_wellFormed hr
  have hperm := objectValues_perm s.accounts
  refine ⟨?_, hperm, ?_, ?_, ?_⟩
  · unfold adminList
    rw [verifyAdminToken_pass]
  · rw [hperm.length_eq, List.length_map]
  · rw [hperm.nodup_iff]
    apply List.Nodup.of_map (fun a : Account => a.accountNumber)
    rw [List.map_map]
    have e : s.accounts.map ((fun a : Account => a.accountNumber) ∘ Prod.snd) =
        s.accounts.map Prod.fst := by
      apply List.map_congr_left
      intro p hp
      exact (hkey p.1 p.2 hp).1
    rw [e]
    exact hnd
  · intro a
    rw [hperm.mem_iff, List.mem_map]
    constructor
    · rintro ⟨p, hp, rfl⟩
      exact ⟨p.1, getOwn_of_mem_nodup hnd hp⟩
    · rintro ⟨key, hl⟩
      exact ⟨(key, a), getOwn_mem hl, rfl⟩

/-- Witness of `list_spec`: the registry holding Alice's new account. -/
theorem list_spec_witness :
    adminList none (some (ADMIN_TOKEN none)) (bank (.fin 0)) =
      (bank (.fin 0), ⟨200, .list (objectValues (bank (.fin 0)).accounts)⟩) ∧
    (objectValues (bank (.fin 0)).accounts).length = (bank (.fin 0)).accounts.length :=
  ⟨(list_spec none (bank (.fin 0)) (reachable_bank none)).1,
   (list_spec none (bank (.fin 0)) (reachable_bank none)).2.2.1⟩

/-- C16: for every draw `r`, a binary64 number with `0 ≤ r < 1`, the binary64
sum `10000000 + r * 90000000` (the product rounded, then the sum rounded) is a
finite number `x` with `10000000 ≤ x < 100000000`; so the candidate
`floor(x)` lies between `10000000` and `99999999`, its decimal string has
exactly eight characters, all digits, the first not `0`, and both ends of the
range are attained (by `r = 0` and by `r = 1 - 2^-53`). -/
theorem candidate_range (r : Draw) :
    0 ≤ r.val ∧ r.val < 1 ∧
    (∃ x : ℚ, candidateSum r = .fin x ∧ 10000000 ≤ x ∧ x < 100000000 ∧
      candidate r = Int.toNat ⌊x⌋) ∧
    10000000 ≤ candidate r ∧ candidate r ≤ 99999999 ∧
    (toString (candidate r)).length = 8 ∧
    isNumeral (toString (candidate r)) = true ∧
    (toString (candidate r)).data.head? ≠ some '0' ∧
    (∃ r0 : Draw, r0.val = 0 ∧ candidate r0 = 10000000) ∧
    (∃ r1 : Draw, r1.val = 9007199254740991 / 9007199254740992 ∧ candidate r1 = 99999999) := by
  obtain ⟨hlo, hhi⟩ := candidate_bounds r
  obtain ⟨hlen, hhead⟩ := toString_eight_digits hlo hhi
  obtain ⟨x, hx, x1, x2⟩ := candidateSum_bounds r
  refine ⟨r.val_nonneg, lt_of_le_of_lt r.val_le (by norm_num), ⟨x, hx, x1, ?_, ?_⟩,
    hlo, by omega, hlen, isNumeral_toString _, hhead,
    ⟨Draw.zero, by decide!, by decide!⟩, ?_⟩
  · linarith [show (0 : ℚ) < 1 / 67108864 by norm_num]
  · unfold candidate
    rw [hx]
  · exact ⟨⟨9007199254740991, 53, by decide, by decide, by decide⟩, by decide!, by decide!⟩

/-- C17, counterexample: the retry loop has no bound.  With account `10000000`
live, whatever the number `N` of colliding draws that come first, the loop has
not ended within `N` iterations and returns the free number drawn next; and
while every draw collides it does not end at all. -/
theorem retry_loop_unbounded :
    (∀ N : Nat,
      (∀ fuel, fuel ≤ N → generateAccountNumber (bank (.fin 0))
        (fun i => if i < N then Draw.zero else Draw.half) fuel = none) ∧
      generateAccountNumber (bank (.fin 0))
        (fun i => if i < N then Draw.zero else Draw.half) (N + 1) = some "55000000") ∧
    (∀ fuel, generateAccountNumber (bank (.fin 0)) (fun _ => Draw.zero) fuel = none) := by
  have hz : ((bank (.fin 0)).get (toString (candidate Draw.zero))).truthy = true := by decide!
  have hh : ((bank (.fin 0)).get (toString (candidate Draw.half))).truthy = false := by decide!
  have hk : toString (candidate Draw.half) = "55000000" := by decide!
  refine ⟨fun N => ⟨?_, ?_⟩, fun fuel => generateAccountNumber_none fuel _ (fun _ => hz)⟩
  · intro fuel hfuel
    apply generateAccountNumber_none_of_lt
    intro i hi
    have : i < N := by omega
    simp only [this, if_true]
    exact hz
  · rw [← hk]
    have := generateAccountNumber_first (s := bank (.fin 0)) N
      (fun i => if i < N then Draw.zero else Draw.half)
      (by simp only [lt_irrefl, if_false]; exact hh)
      (by
        intro i hi
        simp only [hi, if_true]
        exact hz)
      (N + 1) (by omega)
    simpa using this

/-- C17, amended: over a sequence of draws, `generateAccountNumber` returns the
number of the first draw that is not the number of a live account, after
exactly the colliding draws before it: if some draw is free there is a first
free one, at position `m`, every run of more than `m` iterations returns its
number and no shorter run returns; the loop is unbounded, and while every draw
collides it never returns. -/
theorem generateAccountNumber_spec (s : State) (random : Nat → Draw) :
    (∀ n, getOwn s.accounts (toString (candidate (random n))) = none →
      ∃ m, m ≤ n ∧ getOwn s.accounts (toString (candidate (random m))) = none ∧
        (∀ i, i < m → (getOwn s.accounts (toString (candidate (random i)))).isSome = true) ∧
        (∀ fuel, m < fuel →
          generateAccountNumber s random fuel = some (toString (candidate (random m)))) ∧
        (∀ fuel, fuel ≤ m → generateAccountNumber s random fuel = none)) ∧
    ((∀ i, (getOwn s.accounts (toString (candidate (random i)))).isSome = true) →
      ∀ fuel, generateAccountNumber s random fuel = none) := by
  constructor
  · intro n hfree
    obtain ⟨m, hm, hnone, hbefore⟩ := exists_first_free hfree
    refine ⟨m, hm, hnone, hbefore, fun fuel hfuel =>
      generateAccountNumber_of_first hnone hbefore hfuel, ?_⟩
    intro fuel hfuel
    apply generateAccountNumber_none_of_lt
    intro i hi
    rw [truthy_get_toString]
    exact hbefore i (by omega)
  · intro hall fuel
    apply generateAccountNumber_none
    intro i
    rw [truthy_get_toString]
    exact hall i

/-- Witness of `generateAccountNumber_spec`: with account `10000000` live, a free
draw at the first call is returned, and draws that all collide are never. -/
theorem generateAccountNumber_spec_witness :
    (∃ m, m ≤ 0 ∧
      getOwn (bank (.fin 0)).accounts
        (toString (candidate ((fun _ => Draw.half) m))) = none ∧
      (∀ i, i < m → (getOwn (bank (.fin 0)).accounts
        (toString (candidate ((fun _ => Draw.half) i)))).isSome = true) ∧
      (∀ fuel, m < fuel → generateAccountNumber (bank (.fin 0)) (fun _ => Draw.half) fuel =
        some (toString (candidate ((fun _ => Draw.half) m)))) ∧
      (∀ fuel, fuel ≤ m →
        generateAccountNumber (bank (.fin 0)) (fun _ => Draw.half) fuel = none)) ∧
    (∀ fuel, generateAccountNumber (bank (.fin 0)) (fun _ => Draw.zero) fuel = none) :=
  ⟨(generateAccountNumber_spec (bank (.fin 0)) (fun _ => Draw.half)).1 0 (by decide!),
   (generateAccountNumber_spec (bank (.fin 0)) (fun _ => Draw.zero)).2 (fun _ => by decide!)⟩

/-- C18 (defect in the code): the checks do not come in the claimed order for
every input.  `constructor` is an unknown account number, yet a deposit and a
withdrawal on it with an invalid amount are answered 400 for the amount, not
404; and a withdrawal of `Infinity`, an invalid amount, from a live account of
finite balance is answered `Insufficient funds`, not as an invalid amount. -/
theorem check_order_violated :
    getOwn (bank (.fin 50)).accounts "constructor" = none ∧
    postDeposit (bank (.fin 50)) "constructor" (.str "abc") =
      (bank (.fin 50), ⟨400, .error "Invalid deposit amount"⟩) ∧
    postWithdraw (bank (.fin 50)) "constructor" (.num (.fin (-1))) =
      (bank (.fin 50), ⟨400, .error "Invalid withdrawal amount"⟩) ∧
    postWithdraw (bank (.fin 50)) "10000000" (.num .pinf) =
      (bank (.fin 50), ⟨400, .error "Insufficient funds"⟩) := by
  refine ⟨?_, ?_, ?_, ?_⟩ <;> decide!

/-- C19: in every reachable state, for every live account and every positive
finite amount `a`, with exact arithmetic (the sum `b + a` and the balance `b`
are binary64 values, so that neither operation rounds), the deposit of `a` and
the withdrawal of `a` that follows are both answered 200 and the state after
them is the state before. -/
theorem deposit_withdraw_roundtrip (env : Option String) (s : State) (key : String)
    (acct : Account) (q : ℚ) (hr : Reachable env s) (hlive : s.live key acct) (hq : 0 < q)
    (hexact : ∀ b, acct.balance = .fin b →
      roundDouble (b + q) = .fin (b + q) ∧ roundDouble b = .fin b) :
    (postDeposit s key (.num (.fin q))).2.status = 200 ∧
    (postWithdraw (postDeposit s key (.num (.fin q))).1 key (.num (.fin q))).2.status = 200 ∧
    (postWithdraw (postDeposit s key (.num (.fin q))).1 key (.num (.fin q))).1 = s := by
  have hok := reachable_balance hr (key, acct) (getOwn_mem hlive)
  have hok' : acct.balance = .nan ∨ nonNegative acct.balance = true := hok
  cases hb : acct.balance with
  | nan => exact roundtrip_of_balance hlive hq (by rw [hb]; rfl) (by rw [hb]; rfl)
  | pinf => exact roundtrip_of_balance hlive hq (by rw [hb]; rfl) (by rw [hb]; rfl)
  | ninf =>
    rw [hb] at hok'
    simp [nonNegative, JSNum.le] at hok'
  | fin b =>
    obtain ⟨h1, h2⟩ := hexact b hb
    rw [hb] at hok'
    have hb0 : 0 ≤ b := by simpa [nonNegative, JSNum.le] using hok'
    have hsum : acct.balance.add (.fin q) = .fin (b + q) := by
      rw [hb]
      exact h1
    refine roundtrip_of_balance hlive hq ?_ ?_
    · rw [hsum]
      simp only [JSNum.lt, decide_eq_false_iff_not, not_lt]
      linarith
    · rw [hsum, hb]
      show roundDouble (b + q + -q) = .fin b
      have e : b + q + -q = b := by ring
      rw [e]
      exact h2

/-- Witness of `deposit_withdraw_roundtrip`: 100 deposited on Alice's new
account and withdrawn again. -/
theorem deposit_withdraw_roundtrip_witness :
    (postDeposit (bank (.fin 0)) "10000000" (.num (.fin 100))).2.status = 200 ∧
    (postWithdraw (postDeposit (bank (.fin 0)) "10000000" (.num (.fin 100))).1 "10000000"
      (.num (.fin 100))).2.status = 200 ∧
    (postWithdraw (postDeposit (bank (.fin 0)) "10000000" (.num (.fin 100))).1 "10000000"
      (.num (.fin 100))).1 = bank (.fin 0) :=
  deposit_withdraw_roundtrip none (bank (.fin 0)) "10000000" (alice (.fin 0)) 100
    (reachable_bank none) rfl (by norm_num) (by
      intro b hb
      have e : b = 0 := by
        have : JSNum.fin 0 = JSNum.fin b := hb
        exact (JSNum.fin.inj this).symm
      subst e
      exact ⟨by decide!, by decide!⟩)

/-- C20: in every reachable state the sequence an authorised `list` returns is
in strictly ascending order of account number, each number being the decimal
form of an integer from `10000000` to `99999999`; and two reachable states
holding the same accounts in any order of creation return the same sequence. -/
theorem list_ascending (env : Option String) (s : State) (hr : Reachable env s) :
    (∃ l, adminList env (some (ADMIN_TOKEN env)) s = (s, ⟨200, .list l⟩) ∧
      l.Pairwise (fun a b =>
        parseDigits a.accountNumber.data < parseDigits b.accountNumber.data) ∧
      ∀ a ∈ l, ∃ n, 10000000 ≤ n ∧ n ≤ 99999999 ∧ a.accountNumber = toString n ∧
        parseDigits a.accountNumber.data = n) ∧
    (∀ s2, Reachable env s2 → s.accounts.Perm s2.accounts →
      objectValues s2.accounts = objectValues s.accounts) := by
  have hw := reachable_wellFormed hr
  constructor
  · refine ⟨objectValues s.accounts, ?_, objectValues_sorted hw, ?_⟩
    · unfold adminList
      rw [verifyAdminToken_pass]
    · intro a ha
      obtain ⟨p, hp, rfl⟩ := List.mem_map.mp ((objectValues_perm s.accounts).mem_iff.mp ha)
      obtain ⟨hk, r, hr'⟩ := hw.1 p.1 p.2 hp
      have hb := candidate_bounds r
      refine ⟨candidate r, hb.1, by omega, by rw [hk, hr'], ?_⟩
      rw [hk, hr', parseDigits_toString]
  · intro s2 hr2 hperm
    have hw2 := reachable_wellFormed hr2
    haveI : IsAntisymm Account (fun a b =>
        parseDigits a.accountNumber.data < parseDigits b.accountNumber.data) :=
      ⟨fun a b h1 h2 => absurd h1 (by omega)⟩
    apply List.eq_of_perm_of_sorted _ (objectValues_sorted hw2) (objectValues_sorted hw)
    exact (objectValues_perm s2.accounts).trans
      ((hperm.symm.map Prod.snd).trans (objectValues_perm s.accounts).symm)

/-- Witness of `list_ascending`: account `55000000` was created before account
`10000000`, and `list` returns `10000000` first. -/
theorem list_ascending_witness :
    (∃ l, adminList none (some (ADMIN_TOKEN none)) twoAccounts =
        (twoAccounts, ⟨200, .list l⟩) ∧
      l.Pairwise (fun a b =>
        parseDigits a.accountNumber.data < parseDigits b.accountNumber.data) ∧
      ∀ a ∈ l, ∃ n, 10000000 ≤ n ∧ n ≤ 99999999 ∧ a.accountNumber = toString n ∧
        parseDigits a.accountNumber.data = n) ∧
    objectValues twoAccounts.accounts =
      [alice (.fin 0), ⟨"55000000", .str "Bob", .fin 0⟩] :=
  ⟨(list_ascending none twoAccounts (reachable_twoAccounts none)).1, by decide!⟩

end TrustBank
